import Mathlib

/-!
# Verification of the StudyStreak text-extraction pipeline

Shallow embedding of `src/ai-service/utils/extract_text.py` (the
download → format-detect → native-extract → OCR → reconcile → rescue →
normalize pipeline) and proofs about it.

Python strings are modelled as `List Char` (`Str`).  External
collaborators (pdfplumber, pdf2image, pytesseract, the CLIP extractor,
the downloader and the wall clock) are modelled as explicit inputs in a
`Collab` structure; optional-dependency flags (`HAS_PDFPLUMBER`, …) are
booleans in the same structure.  Python `int` parameters are modelled as
`ℤ`, `float` values as `ℚ` (float rounding of these small quantities is
not modelled), word counts and page indices as `ℕ`.
-/

set_option autoImplicit false

namespace StudyStreak

/-- Python strings modelled as lists of characters. -/
abbrev Str := List Char

/-- Approximation of Python `str.isspace` characters (ASCII whitespace plus
the common Unicode spaces; exotic Unicode space characters are not modelled). -/
def isPySpace (c : Char) : Bool :=
  c = ' ' || c = '\t' || c = '\n' || c = '\x0d' || c = '\x0b' || c = '\x0c' ||
  c = '\x1c' || c = '\x1d' || c = '\x1e' || c = '\x85' || c = '\xa0' ||
  c = '\u2028' || c = '\u2029'

/-- Python `str.lstrip()`. -/
def lstripL (s : Str) : Str := s.dropWhile isPySpace

/-- Python `str.rstrip()`. -/
def rstripL (s : Str) : Str := (s.reverse.dropWhile isPySpace).reverse

/-- Python `str.strip()`. -/
def stripL (s : Str) : Str := rstripL (lstripL s)

/-- Python `str.lower()` (ASCII-accurate; `Char.toLower` only lowers ASCII). -/
def toLowerL (s : Str) : Str := s.map Char.toLower

/-- Boolean "is prefix of" on character lists. -/
def isPrefixB : Str → Str → Bool
  | [], _ => true
  | _ :: _, [] => false
  | a :: as, b :: bs => a = b && isPrefixB as bs

/-- Boolean "is substring of": Python `needle in hay`. -/
def infixB (needle : Str) : Str → Bool
  | [] => isPrefixB needle []
  | hay@(_ :: rest) => isPrefixB needle hay || infixB needle rest

/-- Python `hay.endswith(suffix)`. -/
def endsWithB (hay suffix : Str) : Bool := isPrefixB suffix.reverse hay.reverse

/-- Split on a single space character: Python `s.split(" ")`. -/
def splitSp : Str → List Str
  | [] => [[]]
  | ' ' :: rest => [] :: splitSp rest
  | c :: rest =>
    match splitSp rest with
    | [] => [[c]]
    | t :: ts => (c :: t) :: ts

/-- Replace newlines by spaces: the `text.replace("\n", " ")` step of
`to_word_count`. -/
def nlToSpace (s : Str) : Str := s.map (fun c => if c = '\n' then ' ' else c)

/-- Word counter from the source:
`words = [w for w in text.replace("\n", " ").split(" ") if w.strip()]; len(words)`. -/
def to_word_count (text : Str) : ℕ :=
  ((splitSp (nlToSpace text)).filter (fun w => stripL w ≠ [])).length

/-- Join a list of strings with a separator: Python `sep.join(parts)`. -/
def joinSep (sep : Str) : List Str → Str
  | [] => []
  | [p] => p
  | p :: ps => p ++ sep ++ joinSep sep ps

/-- Join with a single newline: Python `"\n".join(parts)`. -/
def joinNL (parts : List Str) : Str := joinSep ['\n'] parts

/-- Line-break characters recognised by Python `str.splitlines`. -/
def isLineBreak (c : Char) : Bool :=
  c = '\n' || c = '\x0d' || c = '\x0b' || c = '\x0c' ||
  c = '\x1c' || c = '\x1d' || c = '\x1e' || c = '\x85' ||
  c = '\u2028' || c = '\u2029'

/-- One step of `str.splitlines()`: prepend character `c` to the split of
the rest.  A break character opens a fresh (empty) first line; any other
character extends the current first line (a trailing break does not
produce a final empty line, hence the `[[c]]` base case). -/
def splitStep (c : Char) : List Str → List Str
  | [] => if isLineBreak c then [[]] else [[c]]
  | l :: ls => if isLineBreak c then [] :: l :: ls else (c :: l) :: ls

/-- Python `str.splitlines()`:  `"\r\n"` counts as one break, a trailing
break does not produce a final empty line. -/
def splitLinesL : Str → List Str
  | [] => []
  | '\x0d' :: '\n' :: rest => [] :: splitLinesL rest
  | c :: rest => splitStep c (splitLinesL rest)

/-! ## `_normalize_text` -/

/-- Bullet/dash unification of `_normalize_text`:
`.replace("•", "- ").replace("•", "- ").replace("●", "- ")
.replace("–", "-").replace("—", "-")`.  The five sequential global
replaces are equivalent to one character-wise expansion because no
replacement output contains a later search character. -/
def bulletNorm (s : Str) : Str :=
  s.flatMap (fun c =>
    if c = '•' then ['-', ' ']
    else if c = '●' then ['-', ' ']
    else if c = '–' then ['-']
    else if c = '—' then ['-']
    else [c])

/-- `text.replace("-\n", "")`: Python `str.replace` makes a single
left-to-right pass over the string, removing non-overlapping occurrences
and continuing after each removed occurrence. -/
def removeHyphenLF : Str → Str
  | '-' :: '\n' :: rest => removeHyphenLF rest
  | c :: rest => c :: removeHyphenLF rest
  | [] => []

/-- One pass of `text.replace("\n\n\n", "\n\n")`. -/
def rep3 : Str → Str
  | '\n' :: '\n' :: '\n' :: rest => '\n' :: '\n' :: rep3 rest
  | c :: rest => c :: rep3 rest
  | [] => []

theorem rep3_length_le (s : Str) : (rep3 s).length ≤ s.length := by
  induction s using rep3.induct <;> simp [rep3] <;> omega

theorem isPrefixB_nnn_iff (s : Str) :
    isPrefixB ['\n', '\n', '\n'] s = true ↔ ∃ r, s = '\n' :: '\n' :: '\n' :: r := by
  match s with
  | [] => simp [isPrefixB]
  | [a] => simp [isPrefixB]
  | [a, b] => simp [isPrefixB]
  | a :: b :: c :: r =>
    simp only [isPrefixB, Bool.and_eq_true, decide_eq_true_eq, List.cons.injEq]
    constructor
    · rintro ⟨h1, h2, h3, -⟩
      exact ⟨r, h1.symm, h2.symm, h3.symm, rfl⟩
    · rintro ⟨r', h1, h2, h3, h4⟩
      exact ⟨h1.symm, h2.symm, h3.symm, trivial⟩

theorem rep3_cons (c : Char) (rest : Str)
    (h : isPrefixB ['\n', '\n', '\n'] (c :: rest) ≠ true) :
    rep3 (c :: rest) = c :: rep3 rest := by
  rw [rep3.eq_def]
  split
  · rename_i r heq
    exact absurd ((isPrefixB_nnn_iff _).mpr ⟨r, heq⟩) h
  · rename_i c' rest' hne heq
    injection heq with h1 h2
    rw [h1, h2]
  · rename_i heq
    simp at heq

theorem rep3_length_lt :
    ∀ s : Str, infixB ['\n', '\n', '\n'] s = true → (rep3 s).length < s.length
  | [], h => by simp [infixB, isPrefixB] at h
  | [a], h => by simp [infixB, isPrefixB] at h
  | [a, b], h => by simp [infixB, isPrefixB] at h
  | a :: b :: c :: r, h => by
    by_cases hp : isPrefixB ['\n', '\n', '\n'] (a :: b :: c :: r) = true
    · obtain ⟨r', heq⟩ := (isPrefixB_nnn_iff _).mp hp
      rw [heq]
      have := rep3_length_le r'
      simp [rep3]; omega
    · have he := rep3_cons a (b :: c :: r) hp
      have h' : infixB ['\n', '\n', '\n'] (b :: c :: r) = true := by
        rw [infixB] at h
        rcases Bool.or_eq_true_iff.mp h with h | h
        · exact absurd h hp
        · exact h
      have := rep3_length_lt (b :: c :: r) h'
      rw [he]
      simpa using Nat.succ_lt_succ this

/-- Fuel-driven body of the blank-line-collapse loop (structural in the
fuel so that it evaluates inside the kernel; `rep3` strictly shrinks the
string, so `s.length` fuel always suffices). -/
def collapseGo : ℕ → Str → Str
  | 0, s => s
  | f + 1, s =>
    if infixB ['\n', '\n', '\n'] s = true then collapseGo f (rep3 s) else s

/-- The `while "\n\n\n" in text: text = text.replace("\n\n\n", "\n\n")` loop. -/
def collapseNewlines (s : Str) : Str := collapseGo s.length s

theorem collapseGo_congr :
    ∀ f₁ f₂ : ℕ, ∀ s : Str, s.length ≤ f₁ → s.length ≤ f₂ →
      collapseGo f₁ s = collapseGo f₂ s := by
  intro f₁
  induction f₁ with
  | zero =>
    intro f₂ s h1 h2
    have hs : s = [] := by
      cases s with
      | nil => rfl
      | cons a t => simp at h1
    subst hs
    cases f₂ with
    | zero => rfl
    | succ f => simp [collapseGo, infixB, isPrefixB]
  | succ f ih =>
    intro f₂ s h1 h2
    cases f₂ with
    | zero =>
      have hs : s = [] := by
        cases s with
        | nil => rfl
        | cons a t => simp at h2
      subst hs
      simp [collapseGo, infixB, isPrefixB]
    | succ f' =>
      by_cases h : infixB ['\n', '\n', '\n'] s = true
      · have hlt := rep3_length_lt s h
        simp only [collapseGo, h, if_pos]
        exact ih f' (rep3 s) (by omega) (by omega)
      · simp [collapseGo, h]

theorem collapseNewlines_eq (s : Str) :
    collapseNewlines s =
      if infixB ['\n', '\n', '\n'] s = true then collapseNewlines (rep3 s)
      else s := by
  by_cases h : infixB ['\n', '\n', '\n'] s = true
  · have hlt := rep3_length_lt s h
    rw [if_pos h]
    unfold collapseNewlines
    cases hl : s.length with
    | zero =>
      exfalso
      have : s = [] := by
        cases s with
        | nil => rfl
        | cons a t => simp at hl
      subst this
      simp [infixB, isPrefixB] at h
    | succ k =>
      simp only [collapseGo, h, if_pos]
      exact collapseGo_congr k (rep3 s).length (rep3 s) (by omega) (le_refl _)
  · rw [if_neg h]
    unfold collapseNewlines
    cases s.length with
    | zero => rfl
    | succ k => simp [collapseGo, h]

/-- The consecutive-duplicate-line removal loop of `_normalize_text`
(`prev` starts as `None`, which no line equals, so the first line is kept). -/
def dedupAdjGo (prev : Str) : List Str → List Str
  | [] => []
  | l :: ls => if l = prev then dedupAdjGo prev ls else l :: dedupAdjGo l ls

/-- Drop immediately-repeated identical lines. -/
def dedupAdj : List Str → List Str
  | [] => []
  | l :: ls => l :: dedupAdjGo l ls

/-- `_normalize_text` from the source: bullet unification, hyphen-wrap
merge, blank-line collapse, per-line `rstrip` and duplicate-line removal. -/
def _normalize_text (text : Str) : Str :=
  if text = [] then text
  else
    let t1 := bulletNorm text
    let t2 := removeHyphenLF t1
    let t3 := collapseNewlines t2
    let lines := (splitLinesL t3).map rstripL
    joinNL (dedupAdj lines)

/-! ## Dictionaries (Python `dict[int, str]`) -/

/-- Insertion-ordered association list standing in for a Python dict. -/
abbrev Dict := List (ℕ × Str)

/-- Python `d[k] = v` (overwrite in place, else append). -/
def dictSet (d : Dict) (k : ℕ) (v : Str) : Dict :=
  if d.any (fun p => p.1 = k) then d.map (fun p => if p.1 = k then (k, v) else p)
  else d ++ [(k, v)]

/-- Python `d.get(k, default)`. -/
def dictGetD (d : Dict) (k : ℕ) (dflt : Str) : Str :=
  match d.find? (fun p => p.1 = k) with
  | some p => p.2
  | none => dflt

/-! ## `_batch_ranges` -/

/-- Insert into a sorted duplicate-free list, used to model Python
`sorted(set(pages))`. -/
def insertSorted (x : ℕ) : List ℕ → List ℕ
  | [] => [x]
  | y :: ys =>
    if x < y then x :: y :: ys
    else if x = y then y :: ys
    else y :: insertSorted x ys

/-- Python `sorted(set(pages))`. -/
def sortedDistinct (l : List ℕ) : List ℕ := l.foldr insertSorted []

/-- The range-building loop of `_batch_ranges` over the sorted
duplicate-free page list (`start`/`prev` as in the source). -/
def rangesGo (start prev : ℕ) : List ℕ → List (ℕ × ℕ)
  | [] => [(start, prev)]
  | p :: ps =>
    if p = prev + 1 then rangesGo start p ps
    else (start, prev) :: rangesGo p p ps

/-- `_batch_ranges` from the source: group sorted page numbers into maximal
contiguous 1-based inclusive `(start, end)` ranges. -/
def _batch_ranges (pages : List ℕ) : List (ℕ × ℕ) :=
  match sortedDistinct pages with
  | [] => []
  | p :: ps => rangesGo p p ps

/-! ## `_ocr_pdf_pages` -/

/-- Fuel-driven generator of the sub-batch boundaries (structural in the
fuel so that it evaluates inside the kernel; `cur` advances by at least
one per step, so `re + 1 - cur` fuel always suffices). -/
def subBatchesGo (bs : ℕ) : ℕ → ℕ → ℕ → List (ℕ × ℕ)
  | 0, _, _ => []
  | f + 1, cur, re =>
    if cur ≤ re ∧ 1 ≤ bs then
      (cur, min (cur + bs - 1) re) :: subBatchesGo bs f (min (cur + bs - 1) re + 1) re
    else []

/-- The sub-batch boundaries the `while cur <= rng_end` loop of
`_ocr_pdf_pages` visits: `last = min(cur + batch_size - 1, rng_end)`, then
`cur = last + 1`.  For `batch_size = 0` the Python loop would not
terminate; the model returns `[]` in that case (all theorems about the
loop assume `1 ≤ batch_size`). -/
def subBatches (bs cur re : ℕ) : List (ℕ × ℕ) :=
  subBatchesGo bs (re + 1 - cur) cur re

theorem subBatchesGo_congr (bs : ℕ) :
    ∀ f₁ f₂ cur re : ℕ, re + 1 - cur ≤ f₁ → re + 1 - cur ≤ f₂ →
      subBatchesGo bs f₁ cur re = subBatchesGo bs f₂ cur re := by
  intro f₁
  induction f₁ with
  | zero =>
    intro f₂ cur re h1 h2
    cases f₂ with
    | zero => rfl
    | succ f =>
      have : ¬(cur ≤ re ∧ 1 ≤ bs) := by
        rintro ⟨hc, -⟩
        omega
      simp [subBatchesGo, this]
  | succ f ih =>
    intro f₂ cur re h1 h2
    cases f₂ with
    | zero =>
      have : ¬(cur ≤ re ∧ 1 ≤ bs) := by
        rintro ⟨hc, -⟩
        omega
      simp [subBatchesGo, this]
    | succ f' =>
      by_cases h : cur ≤ re ∧ 1 ≤ bs
      · have hc : cur ≤ min (cur + bs - 1) re := le_min (by omega) h.1
        simp only [subBatchesGo, h, if_pos]
        rw [ih f' (min (cur + bs - 1) re + 1) re (by omega) (by omega)]
      · simp [subBatchesGo, h]

theorem subBatches_eq (bs cur re : ℕ) :
    subBatches bs cur re =
      if cur ≤ re ∧ 1 ≤ bs then
        (cur, min (cur + bs - 1) re) ::
          subBatches bs (min (cur + bs - 1) re + 1) re
      else [] := by
  by_cases h : cur ≤ re ∧ 1 ≤ bs
  · have hc : cur ≤ min (cur + bs - 1) re := le_min (by omega) h.1
    rw [if_pos h]
    unfold subBatches
    cases hf : re + 1 - cur with
    | zero => omega
    | succ f =>
      simp only [subBatchesGo, h, if_pos]
      rw [subBatchesGo_congr bs f (re + 1 - (min (cur + bs - 1) re + 1))
        (min (cur + bs - 1) re + 1) re (by omega) (le_refl _)]
      simp
  · rw [if_neg h]
    unfold subBatches
    cases re + 1 - cur with
    | zero => rfl
    | succ f => simp [subBatchesGo, h]

/-- OCR state: the `page_texts` dict and the `processed` counter. -/
abbrev OcrSt := Dict × ℕ

/-- The `for idx, img in enumerate(images, start=cur)` loop body:
`page_texts[idx] = (txt or "").strip(); processed += 1` where `txt` is the
engine output for the image (engine exceptions and `None` outputs are
already coalesced to `""` in the collaborator function). -/
def ocrImagesLoop (ocrImage : Str → ℕ → Str) (cfg : Str) :
    ℕ → List ℕ → OcrSt → OcrSt
  | _, [], st => st
  | idx, img :: rest, st =>
    ocrImagesLoop ocrImage cfg (idx + 1) rest
      (dictSet st.1 idx (stripL (ocrImage cfg img)), st.2 + 1)

/-- Processing of the sub-batches of one contiguous range: rasterize each
sub-batch (`convert_from_bytes`); on rasterization failure `break` out of
the whole range's loop; otherwise OCR each image. -/
def runSubBatches (raster : ℤ → ℕ → ℕ → Option (List ℕ))
    (ocrImage : Str → ℕ → Str) (dpi : ℤ) (cfg : Str) :
    List (ℕ × ℕ) → OcrSt → OcrSt
  | [], st => st
  | (cur, last) :: rest, st =>
    match raster dpi cur last with
    | none => st
    | some images =>
      runSubBatches raster ocrImage dpi cfg rest
        (ocrImagesLoop ocrImage cfg cur images st)

/-- `_ocr_pdf_pages` from the source.  Collaborators: `raster dpi first
last` models `convert_from_bytes(data, dpi=dpi, first_page=first,
last_page=last, poppler_path=...)` (`none` = exception, images identified
by natural numbers), `ocrImage cfg img` models
`pytesseract.image_to_string(img, config=cfg)` with exceptions and `None`
coalesced to `""`.  `elapsedMs` is the wall-clock measurement
`(time.time() - start_t) * 1000.0`, an environment input. -/
def _ocr_pdf_pages (hasDeps : Bool) (raster : ℤ → ℕ → ℕ → Option (List ℕ))
    (ocrImage : Str → ℕ → Str) (pages_to_ocr : List ℕ) (dpi : ℤ)
    (ocr_config : Str) (batch_size : ℕ) (elapsedMs : ℚ) : Dict × ℕ × ℚ :=
  if ¬hasDeps ∨ pages_to_ocr = [] then ([], 0, 0)
  else
    let st := (_batch_ranges pages_to_ocr).foldl
      (fun st rng =>
        runSubBatches raster ocrImage dpi ocr_config
          (subBatches batch_size rng.1 rng.2) st)
      ([], 0)
    (st.1, st.2, elapsedMs)

/-! ## `_pdfplumber_extract` -/

/-- One pdfplumber page as seen through the collaborator boundary:
`text` is `page.extract_text() or ""`; `tablesOk` is false when
`page.extract_tables()` raised (the inner `except: pass`); `tables` is
`page.extract_tables() or []` with `None` cells coalesced to `""`
(Python treats `None` and `""` cells identically here: both are falsy). -/
structure PlumberPage where
  text : Str
  tablesOk : Bool
  tables : List (List (List Str))
deriving Repr, DecidableEq

/-- The pdfplumber document: `ok = false` models
`pdfplumber.open`/page iteration raising (the outer `except` returns the
same error tuple regardless of where the exception occurred), with
`errMsg` the `str(e)` text. -/
structure PlumberDoc where
  ok : Bool
  errMsg : Str
  pages : List PlumberPage
deriving Repr, DecidableEq

/-- The per-page text after table stitching (`page_text` at line 176 of
the source): body text plus, per table, the pipe-joined rows that have at
least one cell with non-blank content. -/
def pageRender (page : PlumberPage) : Str :=
  let pt := page.text
  if page.tablesOk then
    page.tables.foldl
      (fun acc table =>
        let row_lines := (table.filter
            (fun row => row.any (fun cell => cell ≠ [] ∧ stripL cell ≠ []))).map
          (fun row => joinSep (" | ".toList) (row.filter (fun cell => cell ≠ [])))
        if row_lines = [] then acc else acc ++ '\n' :: joinNL row_lines)
      pt
  else pt

/-- Metadata dict returned by `_pdfplumber_extract`. -/
structure PlumberMeta where
  method : Str
  per_page_word_counts : List ℕ
  per_page_texts : List Str
deriving Repr, DecidableEq

/-- `_pdfplumber_extract` from the source. -/
def _pdfplumber_extract (hasPlumber : Bool) (doc : PlumberDoc) :
    Str × ℕ × PlumberMeta :=
  if ¬hasPlumber then
    ("PDFPLUMBER_NOT_AVAILABLE".toList, 0, ⟨"pdfplumber_unavailable".toList, [], []⟩)
  else if ¬doc.ok then
    ("PDFPLUMBER_ERROR: ".toList ++ doc.errMsg, 0,
      ⟨"pdfplumber_error".toList, [], []⟩)
  else
    let rendered := doc.pages.map pageRender
    let text_chunks := (rendered.map stripL).filter (· ≠ [])
    let per_page_texts := rendered.map stripL
    let per_page_word_counts := rendered.map to_word_count
    let pages := per_page_word_counts.length
    (joinSep "\n\n".toList text_chunks, pages,
      ⟨"pdfplumber".toList, per_page_word_counts, per_page_texts⟩)

/-! ## Reconciliation (lines 361-376 of the source) -/

/-- The per-page merge decision:
`if ocr_text and (to_word_count(ocr_text) > to_word_count(raw_text) +
ocr_word_gain_threshold or not raw_text.strip()): chosen = ocr_text else:
chosen = raw_text`. -/
def choosePage (g : ℤ) (raw ocr : Str) : Str :=
  if ocr ≠ [] ∧ ((to_word_count ocr : ℤ) > (to_word_count raw : ℤ) + g ∨ stripL raw = [])
  then ocr else raw

/-- The `for idx in range(1, pages + 1)` reconciliation loop building
`final_pages`; `raw_text = per_page_texts[idx-1] if idx-1 <
len(per_page_texts) else ""`, `ocr_text = ocr_map.get(idx, "")`. -/
def reconcileTexts (g : ℤ) (texts : List Str) (om : Dict) (pages : ℕ) : List Str :=
  (List.range pages).map (fun k => choosePage g (texts.getD k []) (dictGetD om (k + 1) []))

/-- The joined document text of the reconciliation branch (line 374):
`"\n\n".join(p.strip() for p in final_pages if p and p.strip())`. -/
def reconciledJoin (g : ℤ) (texts : List Str) (om : Dict) (pages : ℕ) : Str :=
  joinSep "\n\n".toList
    (((reconcileTexts g texts om pages).filter (fun p => p ≠ [] ∧ stripL p ≠ [])).map stripL)

/-! ## OCR candidate selection (lines 336-346) -/

/-- `list(range(1, n + 1))`. -/
def range1 (n : ℕ) : List ℕ := List.range' 1 n

/-- The `enumerate` recursion underlying `lowIdx`, carrying the 0-based
index `k`. -/
def lowIdxGo (k : ℕ) (t : ℤ) : List ℕ → List ℕ
  | [] => []
  | wc :: rest =>
    if (wc : ℤ) < t then (k + 1) :: lowIdxGo (k + 1) t rest
    else lowIdxGo (k + 1) t rest

/-- `[i + 1 for i, wc in enumerate(per_page_word_counts) if wc < threshold]`
(also the shape of the `low_density_pages` loop at lines 481-483, which
enumerates from `start=1`). -/
def lowIdx (ppwc : List ℕ) (t : ℤ) : List ℕ := lowIdxGo 0 t ppwc

/-- Candidate pages: all pages under `full_ocr`, else low-density pages. -/
def ocrCandidates (full_ocr : Bool) (trigger : ℤ) (ppwc : List ℕ) (pages : ℕ) : List ℕ :=
  if full_ocr then range1 pages else lowIdx ppwc trigger

/-- `if max_ocr_pages and max_ocr_pages > 0: candidates =
candidates[:max_ocr_pages]` — for a Python int, `m and m > 0` is exactly
`0 < m` (`0` is falsy, negative ints fail `> 0`). -/
def truncCands (mop : ℤ) (c : List ℕ) : List ℕ :=
  if 0 < mop then c.take mop.toNat else c

/-! ## Format detection (lines 305-307 and the branch chain) -/

/-- `is_pdf = ("pdf" in mime) or file_url_lower.endswith(".pdf")`. -/
def pdfTest (mime url : Str) : Bool :=
  infixB "pdf".toList mime || endsWithB url ".pdf".toList

/-- `is_pptx = any(endswith(ext) for ext in (".ppt",".pptx",".pps",".ppsx"))
or "presentation" in mime`. -/
def pptxTest (mime url : Str) : Bool :=
  (endsWithB url ".ppt".toList || endsWithB url ".pptx".toList ||
   endsWithB url ".pps".toList || endsWithB url ".ppsx".toList) ||
  infixB "presentation".toList mime

/-- `is_docx = any(endswith(ext) for ext in (".docx",".doc")) or
("word" in mime or "document" in mime)`. -/
def docxTest (mime url : Str) : Bool :=
  (endsWithB url ".docx".toList || endsWithB url ".doc".toList) ||
  (infixB "word".toList mime || infixB "document".toList mime)

/-- Document formats distinguished by the dispatch chain. -/
inductive Format
  | pdf
  | pptx
  | docx
  | generic
deriving Repr, DecidableEq

/-- The `if is_pdf: ... elif is_pptx: ... elif is_docx: ... else:` chain
(lines 324, 439, 444, 449), applied to the lowered MIME hint and URL. -/
def classifyFormat (mime url : Str) : Format :=
  if pdfTest mime url then .pdf
  else if pptxTest mime url then .pptx
  else if docxTest mime url then .docx
  else .generic

/-! ## Secondary extractors -/

/-- `extract_from_pdf` (pypdf fallback).  `pageTexts` holds, per page,
`page.extract_text() or ""` (`none` = the page raised and was skipped by
`continue`). -/
def extract_from_pdf (pageTexts : List (Option Str)) : Str × ℕ :=
  let text_parts := pageTexts.filterMap id
  let text := joinNL (text_parts.filter (· ≠ []))
  let text :=
    if text = [] ∨ to_word_count text < 10 then
      ("PDF_EXTRACTION_WARNING: Minimal text extracted. File may contain scanned images or be image-based.\n\n").toList ++ text
    else text
  (text, pageTexts.length)

/-- `extract_from_pptx`: slide shapes' `.text` values (shapes without a
`text` attribute omitted by the collaborator). -/
def extract_from_pptx (slides : List (List Str)) : Str :=
  let chunks := slides.flatMap
    (fun shapes => (shapes.filter (fun t => stripL t ≠ [])).map stripL)
  let text := joinNL (chunks.filter (· ≠ []))
  if text = [] ∨ to_word_count text < 5 then
    ("PPTX_EXTRACTION_WARNING: Minimal text found in presentation. Slides may be image-based.\n\n").toList ++ text
  else text

/-- `extract_from_docx`: paragraph texts then pipe-joined table rows; the
internal `try/except` returns an error string on failure. -/
def extract_from_docx (hasDocx ok : Bool) (errMsg : Str) (paras : List Str)
    (tables : List (List (List Str))) : Str :=
  if ¬hasDocx then
    ("DOCX_EXTRACTION_ERROR: python-docx library not installed. Please install: pip install python-docx").toList
  else if ¬ok then "DOCX_EXTRACTION_ERROR: ".toList ++ errMsg
  else
    let text_parts :=
      paras.filter (fun p => stripL p ≠ []) ++
      tables.flatMap (fun table =>
        table.filterMap (fun row =>
          let row_text := row.filter (fun c => stripL c ≠ [])
          if row_text = [] then none else some (joinSep " | ".toList row_text)))
    let text := joinNL text_parts
    if text = [] ∨ to_word_count text < 10 then
      ("DOCX_EXTRACTION_WARNING: Minimal text extracted from document.\n\n").toList ++ text
    else text

/-! ## Visual term rescue (lines 388-430) -/

/-- Inner loop over `(label, score)` pairs; state = `(rescued_terms,
seen)` with `seen` the set of lowercased accepted terms (kept as a list in
insertion order).  The score is never read by the source, so it is
modelled by an opaque `ℤ`. -/
def buildRescuedInner (text_lower : Str) :
    List (Str × ℤ) → List Str × List Str → List Str × List Str
  | [], st => st
  | (label, _) :: rest, (rescued, seen) =>
    let term := stripL label
    if term = [] then buildRescuedInner text_lower rest (rescued, seen)
    else if infixB (toLowerL term) text_lower = false ∧ toLowerL term ∉ seen then
      buildRescuedInner text_lower rest (rescued ++ [term], seen ++ [toLowerL term])
    else buildRescuedInner text_lower rest (rescued, seen)

/-- Outer loop over `visual_terms.items()`. -/
def buildRescuedGo (text_lower : Str) :
    List (ℕ × List (Str × ℤ)) → List Str × List Str → List Str × List Str
  | [], st => st
  | (_, pairs) :: rest, st =>
    buildRescuedGo text_lower rest (buildRescuedInner text_lower pairs st)

/-- The rescued-term list built from the visual-term map against the
lowercased current text. -/
def buildRescued (vt : List (ℕ × List (Str × ℤ))) (text_lower : Str) : List Str :=
  (buildRescuedGo text_lower vt ([], [])).1

/-- Candidate pages for the visual rescuer (lines 391-405): low-density
pages, else the first `min(pages, 5)` pages; widened (order-preserving,
de-duplicated) up to `min(pages, max(10, max_ocr_pages or 10))` when the
approximate coverage is below target.  In the widening fold, membership
in the accumulator coincides with membership in the Python `seen` set. -/
def rescueCandidates (trigger cwt : ℤ) (ct : ℚ) (mop : ℤ) (pages : ℕ)
    (ppwc : List ℕ) : List ℕ :=
  let candidates := lowIdx ppwc trigger
  let candidates := if candidates = [] then range1 (min pages 5) else candidates
  let lowCount := (ppwc.filter (fun wc => (wc : ℤ) < cwt)).length
  let approx_cov_pct : ℚ := if pages ≠ 0 then ((pages : ℚ) - lowCount) / pages else 0
  if approx_cov_pct < ct then
    let widen := range1 ((min (pages : ℤ) (max 10 (if mop = 0 then 10 else mop))).toNat)
    widen.foldl (fun acc p => if p ∈ acc then acc else acc ++ [p]) candidates
  else candidates

/-- The appendix title string. -/
def appendixTitle : Str := "\n\n## 📌 Visual Terms (images)\n".toList

/-! ## The pipeline -/

/-- Request parameters of `extract_text_detailed` (Python ints as `ℤ`,
floats as `ℚ`; `ocr_page_batch_size` as `ℕ` since the batching loop only
terminates for positive batch sizes). -/
structure Request where
  content_type_hint : Option Str
  file_url : Str
  enable_ocr : Bool
  max_ocr_pages : ℤ
  ocr_trigger_threshold : ℤ
  ocr_word_gain_threshold : ℤ
  dpi : ℤ
  ocr_config : Str
  mode : Str
  full_ocr : Bool
  ocr_page_batch_size : ℕ
  coverage_word_threshold : ℤ
  coverage_target : ℚ

/-- External collaborators and environment, fixed for a run: the
downloader's content-type header, the optional-dependency flags, the
pdfplumber/pypdf/pptx/docx views of the downloaded bytes, the
rasterizer/OCR-engine/CLIP functions, the byte decodings, and the
wall-clock reading `elapsed` taken inside `_ocr_pdf_pages`.
`hasClip` models `HAS_CLIP_EXTRACTOR`, which the import block only
defines when python-docx is absent (`hasDocx = false`); when
`hasDocx = true`, reading it raises a `NameError`. -/
structure Collab where
  detected : Option Str
  hasPlumber : Bool
  hasPdf2Image : Bool
  hasTesseract : Bool
  hasDocx : Bool
  hasClip : Bool
  tesseractEnv : Option Str
  doc : PlumberDoc
  raster : ℤ → ℕ → ℕ → Option (List ℕ)
  ocrImage : Str → ℕ → Str
  clip : List ℕ → Option (List (ℕ × List (Str × ℤ)))
  pypdfOk : Bool
  pypdfErr : Str
  pypdfPages : List (Option Str)
  pptxOk : Bool
  pptxErr : Str
  pptxSlides : List (List Str)
  docxOk : Bool
  docxErr : Str
  docxParas : List Str
  docxTables : List (List (List Str))
  decodeUtf8 : Option Str
  decodeIgnore : Str
  elapsed : ℚ

/-- The mutable locals of `extract_text_detailed` at the end of the big
`try` block. -/
structure Mid where
  text : Str
  pages : Option ℕ
  word_count : ℕ
  avg_words_per_page : ℚ
  extraction_method : Str
  ocr_triggered : Bool
  ocr_pages : ℕ
  ocr_time_ms : ℚ
  warnings : List Str
  per_page_word_counts : List ℕ
  pages_ocrd : List ℕ
  visual_terms : List (ℕ × List (Str × ℤ))
  rescued_terms : List Str
deriving Repr, DecidableEq

/-- The initial values of those locals (lines 309-321). -/
def initMid : Mid :=
  { text := [], pages := none, word_count := 0, avg_words_per_page := 0,
    extraction_method := "unknown".toList, ocr_triggered := false,
    ocr_pages := 0, ocr_time_ms := 0, warnings := [],
    per_page_word_counts := [], pages_ocrd := [], visual_terms := [],
    rescued_terms := [] }

/-- The returned dict of `extract_text_detailed`. -/
structure ExtractionResult where
  text : Str
  pages : Option ℕ
  word_count : ℕ
  avg_words_per_page : ℚ
  extraction_method : Str
  ocr_triggered : Bool
  ocr_pages : ℕ
  ocr_time_ms : ℚ
  warnings : List Str
  per_page_word_counts : List ℕ
  tesseract_cmd_used : Option Str
  low_density_pages : List ℕ
  coverage_pct : ℚ
  extraction_mode_used : Str
  pages_ocrd : List ℕ
  visual_terms : List (ℕ × List (Str × ℤ))
  rescued_terms : List Str
  rescued_terms_count : ℕ
deriving Repr, DecidableEq

/-- Python `round(q, 2)` on these small exact quantities: round half to
even at the second decimal (float representation error is not modelled). -/
def pyRoundHalfEven (q : ℚ) : ℤ :=
  if q - ⌊q⌋ < 1 / 2 then ⌊q⌋
  else if 1 / 2 < q - ⌊q⌋ then ⌊q⌋ + 1
  else if ⌊q⌋ % 2 = 0 then ⌊q⌋ else ⌊q⌋ + 1

/-- Round to two decimal places. -/
def pyRound2 (q : ℚ) : ℚ := (pyRoundHalfEven (q * 100) : ℚ) / 100

/-- Python `int(q)` (truncation toward zero). -/
def pyIntTrunc (q : ℚ) : ℤ := if 0 ≤ q then ⌊q⌋ else -⌊-q⌋

/-- Python `a or b` for strings (empty string is falsy). -/
def pyOr2 (a b : Str) : Str := if a ≠ [] then a else b

/-- The pdfplumber PDF branch up to and including reconciliation
(lines 326-385), before the visual-rescue block. -/
def plumberMid (req : Request) (C : Collab) : Mid :=
  let pr := _pdfplumber_extract true C.doc
  let pdf_text := pr.1
  let pages := pr.2.1
  let meta := pr.2.2
  let base_wc := to_word_count pdf_text
  -- `avg_pp` (line 332) is computed but never used afterwards.
  let m : Mid :=
    if (req.enable_ocr || req.mode = "complete".toList) ∧ pages ≠ 0 then
      let candidates := ocrCandidates req.full_ocr req.ocr_trigger_threshold
        meta.per_page_word_counts pages
      if candidates ≠ [] then
        let candidates := truncCands req.max_ocr_pages candidates
        let r := _ocr_pdf_pages (C.hasPdf2Image && C.hasTesseract) C.raster
          C.ocrImage candidates req.dpi req.ocr_config req.ocr_page_batch_size
          C.elapsed
        let om := r.1
        if om ≠ [] then
          let final := reconcileTexts req.ocr_word_gain_threshold
            meta.per_page_texts om pages
          let text := reconciledJoin req.ocr_word_gain_threshold
            meta.per_page_texts om pages
          { initMid with
            text := text, pages := some pages,
            word_count := to_word_count text,
            extraction_method := "pdfplumber+ocr-selective".toList,
            ocr_triggered := true, ocr_pages := r.2.1, ocr_time_ms := r.2.2,
            per_page_word_counts := final.map to_word_count,
            pages_ocrd := candidates }
        else
          { initMid with
            text := pdf_text, pages := some pages, word_count := base_wc,
            extraction_method := meta.method,
            ocr_pages := r.2.1, ocr_time_ms := r.2.2,
            per_page_word_counts := meta.per_page_word_counts,
            pages_ocrd := candidates }
      else
        { initMid with
          text := pdf_text, pages := some pages, word_count := base_wc,
          extraction_method := meta.method,
          per_page_word_counts := meta.per_page_word_counts }
    else
      { initMid with
        text := pdf_text, pages := some pages, word_count := base_wc,
        extraction_method := meta.method,
        per_page_word_counts := meta.per_page_word_counts }
  { m with avg_words_per_page :=
      if pages ≠ 0 then (m.word_count : ℚ) / pages else 0 }

/-- The visual-rescue block body (inside the `try`, after the `clip` call
succeeded with result `vt`). -/
def rescueApply (vt : List (ℕ × List (Str × ℤ))) (m : Mid) : Mid :=
  let rescued := buildRescued vt (toLowerL m.text)
  if rescued ≠ [] then
    let appendix := appendixTitle ++
      joinNL ((rescued.take 30).map (fun t => "- ".toList ++ t))
    { m with visual_terms := vt, rescued_terms := rescued,
             text := m.text ++ appendix,
             word_count := to_word_count (m.text ++ appendix) }
  else { m with visual_terms := vt, rescued_terms := rescued }

/-- The `str(e)` text of the `NameError` raised by line 388 when
`HAS_CLIP_EXTRACTOR` was never defined (python-docx installed). -/
def nameErrorMsg : Str := "name 'HAS_CLIP_EXTRACTOR' is not defined".toList

/-- The visual-rescue block (lines 387-430) applied to the mid-state `m`
left by the pdfplumber branch; `some msg` in the second component
reports an exception escaping to the outer handler (only the `NameError`
of line 388 can). -/
def branchRescue (req : Request) (hasDocx hasClip : Bool)
    (clip : List ℕ → Option (List (ℕ × List (Str × ℤ)))) (m : Mid) :
    Mid × Option Str :=
  let pages := m.pages.getD 0
  if req.mode = "complete".toList ∧ pages ≠ 0 then
    if hasDocx then (m, some nameErrorMsg)
    else if hasClip then
      let candidates := rescueCandidates req.ocr_trigger_threshold
        req.coverage_word_threshold req.coverage_target req.max_ocr_pages
        pages m.per_page_word_counts
      match clip candidates with
      | none => (m, none)
      | some vt => (rescueApply vt m, none)
    else (m, none)
  else (m, none)

/-- The pdfplumber branch including the visual-rescue block. -/
def plumberBranch (req : Request) (C : Collab) : Mid × Option Str :=
  branchRescue req C.hasDocx C.hasClip C.clip (plumberMid req C)

/-- The `except Exception as e` handler (lines 458-463). -/
def excHandler (C : Collab) (msg : Str) (m : Mid) : Mid :=
  let text := "EXTRACTION_ERROR: ".toList ++ msg ++ "\n\n".toList ++ C.decodeIgnore
  { m with text := text, word_count := to_word_count text,
           avg_words_per_page := 0,
           warnings := m.warnings ++ ["exception_during_extraction".toList],
           extraction_method := "error".toList }

/-- The `try` block of `extract_text_detailed` (lines 323-463) with its
exception handler applied. -/
def extractBody (req : Request) (C : Collab) (fmt : Format) : Mid :=
  match fmt with
  | .pdf =>
    if C.hasPlumber then
      match plumberBranch req C with
      | (m, none) => m
      | (m, some msg) => excHandler C msg m
    else
      if C.pypdfOk then
        let pr := extract_from_pdf C.pypdfPages
        { initMid with
          text := pr.1, pages := some pr.2, word_count := to_word_count pr.1,
          avg_words_per_page :=
            if pr.2 ≠ 0 then (to_word_count pr.1 : ℚ) / pr.2 else 0,
          extraction_method := "pypdf".toList,
          warnings := ["pdfplumber_not_installed".toList] }
      else excHandler C C.pypdfErr initMid
  | .pptx =>
    if C.pptxOk then
      let t := extract_from_pptx C.pptxSlides
      { initMid with text := t, word_count := to_word_count t,
                     extraction_method := "pptx".toList }
    else excHandler C C.pptxErr initMid
  | .docx =>
    let t := extract_from_docx C.hasDocx C.docxOk C.docxErr C.docxParas C.docxTables
    { initMid with text := t, word_count := to_word_count t,
                   extraction_method := "docx".toList }
  | .generic =>
    let t := match C.decodeUtf8 with
      | some t => t
      | none => C.decodeIgnore
    { initMid with text := t, word_count := to_word_count t,
                   extraction_method := "generic-bytes-decode".toList }

/-- The post-processing tail of `extract_text_detailed` (lines 465-506):
normalization, global warnings, coverage, and the result dict. -/
def finishUp (req : Request) (C : Collab) (is_pdf : Bool) (m : Mid) :
    ExtractionResult :=
  let text := _normalize_text m.text
  let pagesN := m.pages.getD 0
  let warnings := m.warnings
  let warnings :=
    if m.word_count < 20 then warnings ++ ["low_total_word_count".toList]
    else warnings
  let warnings :=
    if is_pdf ∧ 0 < pagesN ∧
        ((if m.per_page_word_counts ≠ [] then (m.per_page_word_counts.sum : ℚ)
          else (m.word_count : ℚ)) / pagesN < (req.ocr_trigger_threshold : ℚ)) ∧
        ¬m.ocr_triggered
    then warnings ++ ["low_avg_words_per_page".toList] else warnings
  let warnings :=
    if req.enable_ocr ∧ ¬C.hasTesseract
    then warnings ++ ["pytesseract_not_installed".toList] else warnings
  let warnings :=
    if req.enable_ocr ∧ ¬C.hasPdf2Image
    then warnings ++ ["pdf2image_not_installed".toList] else warnings
  let covActive := is_pdf ∧ 0 < pagesN ∧ m.per_page_word_counts ≠ []
  let low_density_pages :=
    if covActive then lowIdx m.per_page_word_counts req.coverage_word_threshold
    else []
  let coverage_pct : ℚ :=
    if covActive then
      pyRound2 (((pagesN : ℚ) - low_density_pages.length) / pagesN * 100)
    else 0
  { text := stripL text, pages := m.pages, word_count := m.word_count,
    avg_words_per_page := m.avg_words_per_page,
    extraction_method := m.extraction_method,
    ocr_triggered := m.ocr_triggered, ocr_pages := m.ocr_pages,
    ocr_time_ms := m.ocr_time_ms, warnings := warnings,
    per_page_word_counts := m.per_page_word_counts,
    tesseract_cmd_used := C.tesseractEnv,
    low_density_pages := low_density_pages, coverage_pct := coverage_pct,
    extraction_mode_used := req.mode ++ "|target=".toList ++
      (toString (pyIntTrunc (req.coverage_target * 100))).toList ++ "%".toList,
    pages_ocrd := m.pages_ocrd, visual_terms := m.visual_terms,
    rescued_terms := m.rescued_terms,
    rescued_terms_count := m.rescued_terms.length }

/-- `extract_text_detailed` from the source, over the collaborator model. -/
def extract_text_detailed (req : Request) (C : Collab) : ExtractionResult :=
  let mime := toLowerL (pyOr2 (req.content_type_hint.getD []) (C.detected.getD []))
  let url := toLowerL req.file_url
  finishUp req C (pdfTest mime url) (extractBody req C (classifyFormat mime url))

/-! ## Concrete fixtures for witnesses and counterexamples -/

/-- A pdfplumber page with the given body text and no tables. -/
def pageOfText (t : Str) : PlumberPage := ⟨t, true, []⟩

/-- A healthy pdfplumber document with the given page texts. -/
def docOfTexts (ts : List Str) : PlumberDoc := ⟨true, [], ts.map pageOfText⟩

/-- A text of exactly `n` words. -/
def wtxt (n : ℕ) : Str := joinSep [' '] (List.replicate n "w".toList)

/-- A request with the documented defaults, aimed at a PDF source. -/
def baseReq : Request :=
  { content_type_hint := some "application/pdf".toList,
    file_url := "doc.pdf".toList, enable_ocr := false, max_ocr_pages := 25,
    ocr_trigger_threshold := 10, ocr_word_gain_threshold := 20, dpi := 150,
    ocr_config := [], mode := "fast".toList, full_ocr := false,
    ocr_page_batch_size := 20, coverage_word_threshold := 10,
    coverage_target := 95 / 100 }

/-- A collaborator bundle around the given pdfplumber document, with the
optional OCR/CLIP stacks absent and inert secondary extractors. -/
def baseCollab (doc : PlumberDoc) : Collab :=
  { detected := none, hasPlumber := true, hasPdf2Image := false,
    hasTesseract := false, hasDocx := false, hasClip := false,
    tesseractEnv := none, doc := doc, raster := fun _ _ _ => none,
    ocrImage := fun _ _ => [], clip := fun _ => none, pypdfOk := true,
    pypdfErr := [], pypdfPages := [], pptxOk := true, pptxErr := [],
    pptxSlides := [], docxOk := true, docxErr := [], docxParas := [],
    docxTables := [], decodeUtf8 := some [], decodeIgnore := [], elapsed := 0 }

/-! ## C1 — the reconciliation choice rule -/

theorem reconcileTexts_length (g : ℤ) (texts : List Str) (om : Dict) (pages : ℕ) :
    (reconcileTexts g texts om pages).length = pages := by
  simp [reconcileTexts]

theorem reconcileTexts_getD (g : ℤ) (texts : List Str) (om : Dict) (pages i : ℕ)
    (h1 : 1 ≤ i) (h2 : i ≤ pages) :
    (reconcileTexts g texts om pages).getD (i - 1) [] =
      choosePage g (texts.getD (i - 1) []) (dictGetD om i []) := by
  have hlt : i - 1 < (reconcileTexts g texts om pages).length := by
    rw [reconcileTexts_length]; omega
  rw [List.getD_eq_getElem _ _ hlt]
  have hi : i - 1 + 1 = i := by omega
  simp [reconcileTexts, hi]

/-- C1: on the pdfplumber path with a non-empty OCR map, the chosen text
for page `i` is the OCR text when the OCR text is non-empty and the
native text is blank or the OCR word count beats the native word count by
more than `ocr_word_gain_threshold`; otherwise it is the native text, and
whenever the two texts differ the choice is the OCR text exactly under
that condition. -/
theorem reconcile_choice_iff (g : ℤ) (texts : List Str) (om : Dict) (pages i : ℕ)
    (h1 : 1 ≤ i) (h2 : i ≤ pages) :
    let raw := texts.getD (i - 1) []
    let ocr := dictGetD om i []
    let chosen := (reconcileTexts g texts om pages).getD (i - 1) []
    let cond := ocr ≠ [] ∧
      (stripL raw = [] ∨ (to_word_count ocr : ℤ) > (to_word_count raw : ℤ) + g)
    (cond → chosen = ocr) ∧ (¬cond → chosen = raw) ∧
      (ocr ≠ raw → (chosen = ocr ↔ cond)) := by
  intro raw ocr chosen cond
  have hc : chosen = choosePage g raw ocr := reconcileTexts_getD g texts om pages i h1 h2
  by_cases h : cond
  · have he : choosePage g raw ocr = ocr := by
      unfold choosePage
      rw [if_pos ⟨h.1, h.2.symm⟩]
    exact ⟨fun _ => hc.trans he, fun hn => absurd h hn,
      fun _ => ⟨fun _ => h, fun _ => hc.trans he⟩⟩
  · have he : choosePage g raw ocr = raw := by
      unfold choosePage
      rw [if_neg]
      rintro ⟨ha, hb⟩
      exact h ⟨ha, hb.symm⟩
    exact ⟨fun hcnd => absurd hcnd h, fun _ => hc.trans he,
      fun hne => ⟨fun hcho => absurd ((hc.trans he).symm.trans hcho).symm hne,
        fun hcnd => absurd hcnd h⟩⟩

theorem reconcile_choice_iff_witness :
    1 ≤ 1 ∧
    (let raw := ([['a']] : List Str).getD (1 - 1) []
     let ocr := dictGetD [(1, ['b'])] 1 []
     let chosen := (reconcileTexts 0 [['a']] [(1, ['b'])] 1).getD (1 - 1) []
     let cond := ocr ≠ [] ∧
       (stripL raw = [] ∨ (to_word_count ocr : ℤ) > (to_word_count raw : ℤ) + 0)
     (cond → chosen = ocr) ∧ (¬cond → chosen = raw) ∧
       (ocr ≠ raw → (chosen = ocr ↔ cond))) :=
  ⟨le_refl 1, reconcile_choice_iff 0 [['a']] [(1, ['b'])] 1 1 (le_refl 1) (le_refl 1)⟩

/-! ## C6 — format detection priority -/

/-- C6 counterexample: a document whose MIME hint contains `"word"` but
whose filename ends in `.pdf` is classified PDF, not DOCX — the extension
is consulted even though a MIME substring matches. -/
theorem mime_word_pdf_extension_counterexample :
    infixB "word".toList (toLowerL "application/msword".toList) = true ∧
    classifyFormat (toLowerL "application/msword".toList)
        (toLowerL "notes.pdf".toList) ≠ Format.docx ∧
    classifyFormat (toLowerL "application/msword".toList)
        (toLowerL "notes.pdf".toList) = Format.pdf := by
  refine ⟨by decide, by decide, by decide⟩

/-- C6 amended: classification ORs the MIME-substring test and the
extension test per format and applies the branch priority PDF, then PPTX,
then DOCX; a `"word"` MIME hint yields DOCX only when both the PDF test
and the PPTX test fail. -/
theorem format_priority (mime url : Str) :
    (infixB "word".toList mime = true → pdfTest mime url = false →
      pptxTest mime url = false → classifyFormat mime url = Format.docx) ∧
    (endsWithB url ".pdf".toList = true → classifyFormat mime url = Format.pdf) ∧
    (infixB "pdf".toList mime = true → classifyFormat mime url = Format.pdf) ∧
    (classifyFormat mime url = Format.docx →
      docxTest mime url = true ∧ pdfTest mime url = false ∧
        pptxTest mime url = false) := by
  refine ⟨?_, ?_, ?_, ?_⟩
  · intro hw hpdf hpptx
    have hw' : infixB ['w', 'o', 'r', 'd'] mime = true := hw
    simp [classifyFormat, hpdf, hpptx, docxTest, hw']
  · intro hext
    have hext' : endsWithB url ['.', 'p', 'd', 'f'] = true := hext
    simp [classifyFormat, pdfTest, hext']
  · intro hm
    have hm' : infixB ['p', 'd', 'f'] mime = true := hm
    simp [classifyFormat, pdfTest, hm']
  · intro hc
    by_cases h1 : pdfTest mime url = true
    · simp [classifyFormat, h1] at hc
    · by_cases h2 : pptxTest mime url = true
      · simp [classifyFormat, h1, h2] at hc
      · by_cases h3 : docxTest mime url = true
        · exact ⟨h3, by simpa using h1, by simpa using h2⟩
        · simp [classifyFormat, h1, h2, h3] at hc

theorem format_priority_witness :
    classifyFormat "application/msword".toList "file.bin".toList = Format.docx :=
  (format_priority "application/msword".toList "file.bin".toList).1
    (by decide) (by decide) (by decide)

/-! ## C3 — `full_ocr` candidate selection and the page cap -/

theorem range1_take (n m : ℕ) : (range1 n).take m = range1 (min n m) := by
  unfold range1
  rw [List.range'_eq_map_range, ← List.map_take, List.take_range,
    List.range'_eq_map_range, Nat.min_comm]

theorem plumber_pages_length (doc : PlumberDoc) (hok : doc.ok = true) :
    (_pdfplumber_extract true doc).2.1 = doc.pages.length := by
  simp [_pdfplumber_extract, hok]

theorem excHandler_pages_ocrd (C : Collab) (msg : Str) (m : Mid) :
    (excHandler C msg m).pages_ocrd = m.pages_ocrd := rfl

theorem rescueApply_pages_ocrd (vt : List (ℕ × List (Str × ℤ))) (m : Mid) :
    (rescueApply vt m).pages_ocrd = m.pages_ocrd := by
  simp only [rescueApply]
  split <;> rfl

theorem branchRescue_fst_pages_ocrd (req : Request) (hasDocx hasClip : Bool)
    (clip : List ℕ → Option (List (ℕ × List (Str × ℤ)))) (m : Mid) :
    (branchRescue req hasDocx hasClip clip m).1.pages_ocrd = m.pages_ocrd := by
  simp only [branchRescue]
  split
  · split
    · rfl
    · split
      · split
        · rfl
        · exact rescueApply_pages_ocrd _ _
      · rfl
  · rfl

theorem plumberBranch_fst_pages_ocrd (req : Request) (C : Collab) :
    (plumberBranch req C).1.pages_ocrd = (plumberMid req C).pages_ocrd :=
  branchRescue_fst_pages_ocrd req C.hasDocx C.hasClip C.clip (plumberMid req C)

theorem extractBody_pdf_pages_ocrd (req : Request) (C : Collab)
    (hpl : C.hasPlumber = true) :
    (extractBody req C Format.pdf).pages_ocrd = (plumberMid req C).pages_ocrd := by
  unfold extractBody
  rw [hpl]
  cases hpb : plumberBranch req C with
  | mk m exc =>
    have hm : m.pages_ocrd = (plumberMid req C).pages_ocrd := by
      have := plumberBranch_fst_pages_ocrd req C
      rw [hpb] at this
      exact this
    cases exc <;> simp [excHandler_pages_ocrd, hm]

theorem plumberMid_pages_ocrd_full (req : Request) (C : Collab)
    (hok : C.doc.ok = true) (hfo : req.full_ocr = true)
    (hoc : req.enable_ocr = true) :
    (plumberMid req C).pages_ocrd =
      truncCands req.max_ocr_pages (range1 C.doc.pages.length) := by
  have hpg := plumber_pages_length C.doc hok
  by_cases hz : C.doc.pages.length = 0
  · simp only [plumberMid, hpg, hz]
    simp [truncCands, range1, initMid]
  · have hcand : ocrCandidates req.full_ocr req.ocr_trigger_threshold
        (_pdfplumber_extract true C.doc).2.2.per_page_word_counts
        C.doc.pages.length = range1 C.doc.pages.length := by
      simp [ocrCandidates, hfo]
    have hne : range1 C.doc.pages.length ≠ [] := by
      intro h
      have := congrArg List.length h
      simp [range1] at this
      exact hz (by rw [this]; rfl)
    simp only [plumberMid, hpg, hoc, Bool.true_or, hcand]
    rw [if_pos ⟨trivial, hz⟩, if_pos hne]
    split <;> rfl

/-- C3 counterexample: with `full_ocr` and `max_ocr_pages = 0`, the cap is
not applied (Python `0` is falsy), so all pages are OCR'd instead of the
claimed `1..min(N, 0) = []`. -/
theorem full_ocr_zero_cap_counterexample :
    (extract_text_detailed
        { baseReq with enable_ocr := true, full_ocr := true, max_ocr_pages := 0 }
        (baseCollab (docOfTexts [wtxt 3, wtxt 4]))).pages_ocrd = [1, 2] ∧
    ([1, 2] : List ℕ) ≠ range1 (min 2 (0 : ℤ).toNat) := ⟨by decide, by decide⟩

/-- C3 amended: with OCR enabled, `full_ocr = true` and `max_ocr_pages >=
1`, the reported `pages_ocrd` is exactly `1..min(N, max_ocr_pages)`, the
truncation being applied to the candidate list before `_ocr_pdf_pages`
does any batching; with `max_ocr_pages = 0` the cap is ignored and
`pages_ocrd = 1..N`. -/
theorem full_ocr_pages_ocrd (req : Request) (C : Collab)
    (hmime : pdfTest (toLowerL (pyOr2 (req.content_type_hint.getD [])
        (C.detected.getD []))) (toLowerL req.file_url) = true)
    (hpl : C.hasPlumber = true) (hok : C.doc.ok = true)
    (hfo : req.full_ocr = true) (hoc : req.enable_ocr = true) :
    (0 < req.max_ocr_pages →
      (extract_text_detailed req C).pages_ocrd =
        range1 (min C.doc.pages.length req.max_ocr_pages.toNat)) ∧
    (req.max_ocr_pages = 0 →
      (extract_text_detailed req C).pages_ocrd = range1 C.doc.pages.length) := by
  have hfmt : classifyFormat
      (toLowerL (pyOr2 (req.content_type_hint.getD []) (C.detected.getD [])))
      (toLowerL req.file_url) = Format.pdf := by
    simp [classifyFormat, hmime]
  have hres : (extract_text_detailed req C).pages_ocrd =
      truncCands req.max_ocr_pages (range1 C.doc.pages.length) := by
    simp only [extract_text_detailed]
    rw [hfmt]
    show (extractBody req C Format.pdf).pages_ocrd = _
    rw [extractBody_pdf_pages_ocrd req C hpl,
      plumberMid_pages_ocrd_full req C hok hfo hoc]
  constructor
  · intro hmop
    rw [hres]
    unfold truncCands
    rw [if_pos hmop, range1_take]
  · intro hmop
    rw [hres]
    unfold truncCands
    rw [if_neg (by omega)]

theorem full_ocr_pages_ocrd_witness :
    (extract_text_detailed { baseReq with enable_ocr := true, full_ocr := true }
        (baseCollab (docOfTexts [wtxt 3, wtxt 4]))).pages_ocrd =
      range1 (min 2 (25 : ℤ).toNat) :=
  (full_ocr_pages_ocrd
    { baseReq with enable_ocr := true, full_ocr := true }
    (baseCollab (docOfTexts [wtxt 3, wtxt 4]))
    (by decide) (by decide) (by decide) (by decide) (by decide)).1 (by decide)

/-! ## C4 — no word gain means the native text is kept -/

theorem lstripL_cons_space (c : Char) (t : Str) (h : isPySpace c = true) :
    lstripL (c :: t) = lstripL t := by
  simp [lstripL, List.dropWhile_cons, h]

theorem lstripL_cons_not_space (c : Char) (t : Str) (h : isPySpace c = false) :
    lstripL (c :: t) = c :: t := by
  simp [lstripL, List.dropWhile_cons, h]

theorem dropWhile_idem (p : Char → Bool) (l : Str) :
    List.dropWhile p (List.dropWhile p l) = List.dropWhile p l := by
  induction l with
  | nil => rfl
  | cons a l ih =>
    by_cases h : p a = true
    · simp [List.dropWhile_cons, h, ih]
    · simp [List.dropWhile_cons, h]

theorem rstripL_cons (c : Char) (t : Str) :
    rstripL (c :: t) =
      if rstripL t = [] then (if isPySpace c then [] else [c])
      else c :: rstripL t := by
  simp only [rstripL, List.reverse_cons, List.dropWhile_append]
  by_cases h : (List.dropWhile isPySpace t.reverse).isEmpty = true
  · have ht : (t.reverse.dropWhile isPySpace).reverse = [] := by
      rw [List.isEmpty_iff] at h
      rw [h]; rfl
    rw [if_pos h, if_pos ht]
    by_cases hc : isPySpace c = true
    · simp [List.dropWhile_cons, hc]
    · simp [List.dropWhile_cons, hc]
  · have ht : ¬(t.reverse.dropWhile isPySpace).reverse = [] := by
      intro hh
      rw [List.isEmpty_iff] at h
      exact h (by simpa using congrArg List.reverse hh)
    rw [if_neg h, if_neg ht]
    simp

theorem rstripL_cons_not_space (c : Char) (t : Str) (h : isPySpace c = false) :
    rstripL (c :: t) = c :: rstripL t := by
  rw [rstripL_cons]
  by_cases ht : rstripL t = []
  · rw [if_pos ht, ht, h]
    rfl
  · rw [if_neg ht]

theorem rstripL_idem (t : Str) : rstripL (rstripL t) = rstripL t := by
  simp [rstripL, dropWhile_idem]

theorem lstripL_eq_cons (s : Str) (c : Char) (t : Str)
    (h : lstripL s = c :: t) : isPySpace c = false := by
  induction s with
  | nil => simp [lstripL] at h
  | cons a s ih =>
    by_cases ha : isPySpace a = true
    · exact ih (by rwa [lstripL_cons_space a s ha] at h)
    · rw [lstripL_cons_not_space a s (by simpa using ha)] at h
      injection h with h1 _
      rw [← h1]
      simpa using ha

theorem stripL_idem (s : Str) : stripL (stripL s) = stripL s := by
  unfold stripL
  cases hl : lstripL s with
  | nil => rfl
  | cons c t =>
    have hc := lstripL_eq_cons s c t hl
    rw [rstripL_cons_not_space c t hc,
      lstripL_cons_not_space c (rstripL t) hc,
      rstripL_cons_not_space c (rstripL t) hc, rstripL_idem]

theorem stripped_filter_map (L : List Str) (h : ∀ q ∈ L, stripL q = q) :
    (L.filter (fun p => p ≠ [] ∧ stripL p ≠ [])).map stripL =
      L.filter (· ≠ []) := by
  induction L with
  | nil => rfl
  | cons q L ih =>
    have hq := h q (by simp)
    have ih' := ih (fun x hx => h x (by simp [hx]))
    by_cases hqe : q = []
    · subst hqe
      simpa using ih'
    · rw [List.filter_cons, List.filter_cons]
      have hd : (decide (q ≠ [] ∧ stripL q ≠ [])) = true := by
        simp [hqe, hq]
      rw [hd, if_pos rfl, if_pos (show decide (q ≠ []) = true by simp [hqe]),
        List.map_cons, hq, ih']

theorem reconcileTexts_eq_self (g : ℤ) (om : Dict) (texts : List Str)
    (h : ∀ i, 1 ≤ i → i ≤ texts.length →
      choosePage g (texts.getD (i - 1) []) (dictGetD om i []) =
        texts.getD (i - 1) []) :
    reconcileTexts g texts om texts.length = texts := by
  apply List.ext_getElem
  · simp [reconcileTexts]
  · intro n h1 h2
    have hn : n < texts.length := by simpa [reconcileTexts] using h1
    have hcp := h (n + 1) (by omega) (by omega)
    simp only [Nat.add_sub_cancel] at hcp
    simp only [reconcileTexts, List.getElem_map, List.getElem_range, hcp]
    exact (List.getD_eq_getElem texts [] hn).symm ▸ rfl

/-- C4 counterexample: a blank native page with a tiny non-empty OCR text
satisfies the no-gain hypothesis (`1 <= 0 + 20`), yet the OCR text is
chosen (the `not raw_text.strip()` disjunct fires), so the reconciled
text differs from the native-only text. -/
theorem no_gain_blank_page_counterexample :
    ((to_word_count (dictGetD [(1, "hello".toList)] 1 []) : ℤ) ≤
      (to_word_count ((_pdfplumber_extract true (docOfTexts [[]])).2.2.per_page_texts.getD 0 []) : ℤ) + 20) ∧
    reconciledJoin 20 (_pdfplumber_extract true (docOfTexts [[]])).2.2.per_page_texts
        [(1, "hello".toList)] (_pdfplumber_extract true (docOfTexts [[]])).2.1 ≠
      (_pdfplumber_extract true (docOfTexts [[]])).1 := ⟨by decide, by decide⟩

/-- C4 amended: if for every page the OCR word count is at most the
native word count plus `ocr_word_gain_threshold`, and additionally no
page with non-empty OCR text has blank native text, then the reconciled
joined text is byte-identical to the native-only pdfplumber text (OCR
results computed but never chosen). -/
theorem no_gain_native_identical (g : ℤ) (doc : PlumberDoc) (om : Dict)
    (hok : doc.ok = true)
    (hyp : ∀ i ∈ range1 (_pdfplumber_extract true doc).2.1,
      ((to_word_count (dictGetD om i []) : ℤ) ≤
        (to_word_count ((_pdfplumber_extract true doc).2.2.per_page_texts.getD (i - 1) []) : ℤ) + g) ∧
      (dictGetD om i [] ≠ [] →
        stripL ((_pdfplumber_extract true doc).2.2.per_page_texts.getD (i - 1) []) ≠ [])) :
    reconciledJoin g (_pdfplumber_extract true doc).2.2.per_page_texts om
        (_pdfplumber_extract true doc).2.1 =
      (_pdfplumber_extract true doc).1 := by
  have h1 : (_pdfplumber_extract true doc).2.2.per_page_texts =
      (doc.pages.map pageRender).map stripL := by
    simp [_pdfplumber_extract, hok]
  have h2 : (_pdfplumber_extract true doc).2.1 = doc.pages.length :=
    plumber_pages_length doc hok
  have h3 : (_pdfplumber_extract true doc).1 =
      joinSep "\n\n".toList (((doc.pages.map pageRender).map stripL).filter (· ≠ [])) := by
    simp [_pdfplumber_extract, hok]
  have hstr : ∀ q ∈ (doc.pages.map pageRender).map stripL, stripL q = q := by
    intro q hq
    obtain ⟨x, -, hx⟩ := List.mem_map.mp hq
    rw [← hx]
    exact stripL_idem x
  have hlen : ((doc.pages.map pageRender).map stripL).length = doc.pages.length := by
    simp
  have hself : reconcileTexts g ((doc.pages.map pageRender).map stripL) om
      doc.pages.length = (doc.pages.map pageRender).map stripL := by
    rw [← hlen]
    apply reconcileTexts_eq_self
    intro i hi1 hi2
    have hmem : i ∈ range1 (_pdfplumber_extract true doc).2.1 := by
      rw [h2]
      rw [range1, List.mem_range'_1]
      rw [hlen] at hi2
      omega
    obtain ⟨hwc, hbl⟩ := hyp i hmem
    rw [h1] at hwc hbl
    unfold choosePage
    rw [if_neg]
    rintro ⟨hne, hcase⟩
    rcases hcase with hgain | hblank
    · omega
    · exact hbl hne hblank
  rw [reconciledJoin, h1, h2, hself, h3]
  exact congrArg (joinSep "\n\n".toList)
    (stripped_filter_map ((doc.pages.map pageRender).map stripL) hstr)

theorem no_gain_native_identical_witness :
    (docOfTexts [wtxt 3]).ok = true ∧
    (∀ i ∈ range1 (_pdfplumber_extract true (docOfTexts [wtxt 3])).2.1,
      ((to_word_count (dictGetD [(1, wtxt 2)] i []) : ℤ) ≤
        (to_word_count ((_pdfplumber_extract true (docOfTexts [wtxt 3])).2.2.per_page_texts.getD (i - 1) []) : ℤ) + 0) ∧
      (dictGetD [(1, wtxt 2)] i [] ≠ [] →
        stripL ((_pdfplumber_extract true (docOfTexts [wtxt 3])).2.2.per_page_texts.getD (i - 1) []) ≠ [])) ∧
    reconciledJoin 0 (_pdfplumber_extract true (docOfTexts [wtxt 3])).2.2.per_page_texts
        [(1, wtxt 2)] (_pdfplumber_extract true (docOfTexts [wtxt 3])).2.1 =
      (_pdfplumber_extract true (docOfTexts [wtxt 3])).1 :=
  ⟨by decide, by decide,
    no_gain_native_identical 0 (docOfTexts [wtxt 3]) [(1, wtxt 2)]
      (by decide) (by decide)⟩

/-! ## C9 — determinism up to the wall clock -/

theorem ocr_map_indep (hasDeps : Bool) (raster : ℤ → ℕ → ℕ → Option (List ℕ))
    (ocrImage : Str → ℕ → Str) (pages : List ℕ) (dpi : ℤ) (cfg : Str)
    (bs : ℕ) (e : ℚ) :
    (_ocr_pdf_pages hasDeps raster ocrImage pages dpi cfg bs e).1 =
      (_ocr_pdf_pages hasDeps raster ocrImage pages dpi cfg bs 0).1 := by
  unfold _ocr_pdf_pages
  split <;> rfl

theorem ocr_count_indep (hasDeps : Bool) (raster : ℤ → ℕ → ℕ → Option (List ℕ))
    (ocrImage : Str → ℕ → Str) (pages : List ℕ) (dpi : ℤ) (cfg : Str)
    (bs : ℕ) (e : ℚ) :
    (_ocr_pdf_pages hasDeps raster ocrImage pages dpi cfg bs e).2.1 =
      (_ocr_pdf_pages hasDeps raster ocrImage pages dpi cfg bs 0).2.1 := by
  unfold _ocr_pdf_pages
  split <;> rfl

theorem plumberMid_elapsed (req : Request) (C : Collab) (e : ℚ) :
    plumberMid req { C with elapsed := e } =
      { plumberMid req C with
        ocr_time_ms := (plumberMid req { C with elapsed := e }).ocr_time_ms } := by
  simp only [plumberMid]
  simp only [ocr_map_indep, ocr_count_indep]
  repeat' split
  all_goals rfl

theorem rescueApply_time (vt : List (ℕ × List (Str × ℤ))) (m : Mid) (x : ℚ) :
    rescueApply vt { m with ocr_time_ms := x } =
      { rescueApply vt m with ocr_time_ms := x } := by
  simp only [rescueApply]
  split <;> rfl

theorem branchRescue_time (req : Request) (hasDocx hasClip : Bool)
    (clip : List ℕ → Option (List (ℕ × List (Str × ℤ)))) (m : Mid) (x : ℚ) :
    branchRescue req hasDocx hasClip clip { m with ocr_time_ms := x } =
      ({ (branchRescue req hasDocx hasClip clip m).1 with ocr_time_ms := x },
        (branchRescue req hasDocx hasClip clip m).2) := by
  simp only [branchRescue]
  split
  · split
    · rfl
    · split
      · split
        · rfl
        · rw [rescueApply_time]
      · rfl
  · rfl

theorem plumberBranch_elapsed (req : Request) (C : Collab) (e : ℚ) :
    plumberBranch req { C with elapsed := e } =
      ({ (plumberBranch req C).1 with
          ocr_time_ms := (plumberMid req { C with elapsed := e }).ocr_time_ms },
        (plumberBranch req C).2) := by
  show branchRescue req C.hasDocx C.hasClip C.clip
      (plumberMid req { C with elapsed := e }) = _
  rw [plumberMid_elapsed req C e,
    branchRescue_time req C.hasDocx C.hasClip C.clip (plumberMid req C)]
  rfl

theorem excHandler_time (C : Collab) (msg : Str) (m : Mid) (x : ℚ) :
    excHandler C msg { m with ocr_time_ms := x } =
      { excHandler C msg m with ocr_time_ms := x } := rfl

theorem extractBody_elapsed (req : Request) (C : Collab) (e : ℚ) (fmt : Format) :
    extractBody req { C with elapsed := e } fmt =
      { extractBody req C fmt with
        ocr_time_ms := (extractBody req { C with elapsed := e } fmt).ocr_time_ms } := by
  cases fmt with
  | pdf =>
    by_cases hpl : C.hasPlumber = true
    · cases hpb : plumberBranch req C with
      | mk m1 exc =>
        have hL : plumberBranch req { C with elapsed := e } =
            ({ m1 with ocr_time_ms :=
                (plumberMid req { C with elapsed := e }).ocr_time_ms }, exc) := by
          rw [plumberBranch_elapsed req C e, hpb]
        cases exc with
        | none =>
          have hBodyE : extractBody req { C with elapsed := e } Format.pdf =
              { m1 with ocr_time_ms :=
                  (plumberMid req { C with elapsed := e }).ocr_time_ms } := by
            simp only [extractBody]
            rw [if_pos (show ({ C with elapsed := e } : Collab).hasPlumber = true from hpl), hL]
          have hBodyC : extractBody req C Format.pdf = m1 := by
            simp only [extractBody]
            rw [if_pos (show C.hasPlumber = true from hpl), hpb]
          rw [hBodyE, hBodyC]
        | some msg =>
          have hBodyE : extractBody req { C with elapsed := e } Format.pdf =
              excHandler { C with elapsed := e } msg
                { m1 with ocr_time_ms :=
                    (plumberMid req { C with elapsed := e }).ocr_time_ms } := by
            simp only [extractBody]
            rw [if_pos (show ({ C with elapsed := e } : Collab).hasPlumber = true from hpl), hL]
          have hBodyC : extractBody req C Format.pdf = excHandler C msg m1 := by
            simp only [extractBody]
            rw [if_pos (show C.hasPlumber = true from hpl), hpb]
          rw [hBodyE, hBodyC]
          rfl
    · have hsame : extractBody req { C with elapsed := e } Format.pdf =
          extractBody req C Format.pdf := by
        simp only [extractBody]
        rw [if_neg (show ¬(({ C with elapsed := e } : Collab).hasPlumber = true) from hpl),
          if_neg hpl]
        rfl
      rw [hsame]
  | pptx => rfl
  | docx => rfl
  | generic => rfl

theorem finishUp_time (req : Request) (C : Collab) (b : Bool) (m : Mid) (x : ℚ) :
    finishUp req C b { m with ocr_time_ms := x } =
      { finishUp req C b m with ocr_time_ms := x } := by
  simp only [finishUp]

theorem finishUp_collab_elapsed (req : Request) (C : Collab) (e : ℚ) (b : Bool)
    (m : Mid) :
    finishUp req { C with elapsed := e } b m = finishUp req C b m := rfl

theorem extract_elapsed (req : Request) (C : Collab) (e : ℚ) :
    extract_text_detailed req { C with elapsed := e } =
      { extract_text_detailed req C with
        ocr_time_ms :=
          (extract_text_detailed req { C with elapsed := e }).ocr_time_ms } := by
  show finishUp req { C with elapsed := e } _
      (extractBody req { C with elapsed := e } _) = _
  rw [finishUp_collab_elapsed]
  rw [extractBody_elapsed req C e]
  rw [finishUp_time]
  rfl

/-- C9 counterexample: two runs on identical bytes and parameters with
every external collaborator fixed, differing only in the wall-clock
measurement inside `_ocr_pdf_pages`, give different `ExtractionResult`
values: `ocr_time_ms` is a clock reading, not a function of the inputs. -/
theorem elapsed_time_nondeterminism_counterexample :
    (extract_text_detailed { baseReq with enable_ocr := true, full_ocr := true }
        { baseCollab (docOfTexts [wtxt 1]) with
            hasPdf2Image := true, hasTesseract := true, elapsed := 1 }).ocr_time_ms = 1 ∧
    (extract_text_detailed { baseReq with enable_ocr := true, full_ocr := true }
        { baseCollab (docOfTexts [wtxt 1]) with
            hasPdf2Image := true, hasTesseract := true, elapsed := 2 }).ocr_time_ms = 2 ∧
    extract_text_detailed { baseReq with enable_ocr := true, full_ocr := true }
        { baseCollab (docOfTexts [wtxt 1]) with
            hasPdf2Image := true, hasTesseract := true, elapsed := 1 } ≠
      extract_text_detailed { baseReq with enable_ocr := true, full_ocr := true }
        { baseCollab (docOfTexts [wtxt 1]) with
            hasPdf2Image := true, hasTesseract := true, elapsed := 2 } := by
  refine ⟨by decide, by decide, ?_⟩
  intro h
  have := congrArg ExtractionResult.ocr_time_ms h
  revert this
  decide

/-- C9 amended: two runs of the detailed extraction on identical document
bytes and request parameters, with all external collaborators fixed,
produce `ExtractionResult` values that agree on every field — text,
pages, word counts, warnings order, coverage, rescued terms — except
`ocr_time_ms`, which is the wall-clock measurement of the OCR phase and
varies with the clock readings of the two runs. -/
theorem determinism_modulo_elapsed (req : Request) (C : Collab) (e₁ e₂ : ℚ) :
    extract_text_detailed req { C with elapsed := e₁ } =
      { extract_text_detailed req { C with elapsed := e₂ } with
        ocr_time_ms :=
          (extract_text_detailed req { C with elapsed := e₁ }).ocr_time_ms } := by
  rw [extract_elapsed req C e₁, extract_elapsed req C e₂]

/-! ## C8 — visual-rescue term list -/

theorem isPrefixB_iff (p : Str) : ∀ s : Str, isPrefixB p s = true ↔ ∃ v, s = p ++ v := by
  induction p with
  | nil =>
    intro s
    simp [isPrefixB]
  | cons a as ih =>
    intro s
    cases s with
    | nil =>
      simp [isPrefixB]
    | cons b bs =>
      simp only [isPrefixB, Bool.and_eq_true, decide_eq_true_eq, ih bs]
      constructor
      · rintro ⟨hab, v, hv⟩
        exact ⟨v, by rw [hab, hv]; rfl⟩
      · rintro ⟨v, hv⟩
        injection hv with h1 h2
        exact ⟨h1.symm, v, h2⟩

theorem infixB_iff (p : Str) : ∀ s : Str, infixB p s = true ↔ ∃ u v, s = u ++ p ++ v := by
  intro s
  induction s with
  | nil =>
    rw [infixB, isPrefixB_iff]
    constructor
    · rintro ⟨v, hv⟩
      exact ⟨[], v, hv⟩
    · rintro ⟨u, v, huv⟩
      cases u with
      | nil => exact ⟨v, huv⟩
      | cons x xs => simp at huv
  | cons c rest ih =>
    rw [infixB, Bool.or_eq_true_iff, isPrefixB_iff, ih]
    constructor
    · rintro (⟨v, hv⟩ | ⟨u, v, huv⟩)
      · exact ⟨[], v, hv⟩
      · exact ⟨c :: u, v, by rw [huv]; rfl⟩
    · rintro ⟨u, v, huv⟩
      cases u with
      | nil =>
        left
        exact ⟨v, huv⟩
      | cons x xs =>
        right
        injection huv with h1 h2
        exact ⟨xs, v, h2⟩

theorem infixB_append_left (p x y : Str) (h : infixB p y = true) :
    infixB p (x ++ y) = true := by
  obtain ⟨u, v, huv⟩ := (infixB_iff p y).mp h
  exact (infixB_iff p (x ++ y)).mpr ⟨x ++ u, v, by rw [huv]; simp⟩

theorem infixB_append_right (p x y : Str) (h : infixB p x = true) :
    infixB p (x ++ y) = true := by
  obtain ⟨u, v, huv⟩ := (infixB_iff p x).mp h
  exact (infixB_iff p (x ++ y)).mpr ⟨u, v ++ y, by rw [huv]; simp⟩

theorem infixB_refl (p : Str) : infixB p p = true :=
  (infixB_iff p p).mpr ⟨[], [], by simp⟩

theorem mem_joinNL_infixB (x : Str) : ∀ L : List Str, x ∈ L →
    infixB x (joinNL L) = true := by
  intro L
  induction L with
  | nil => intro h; simp at h
  | cons l ls ih =>
    intro h
    rcases List.mem_cons.mp h with h | h
    · subst h
      cases ls with
      | nil => exact infixB_refl x
      | cons l2 ls2 =>
        show infixB x (x ++ ['\n'] ++ joinNL (l2 :: ls2)) = true
        rw [List.append_assoc]
        exact infixB_append_right x x _ (infixB_refl x)
    · cases ls with
      | nil => simp at h
      | cons l2 ls2 =>
        show infixB x (l ++ ['\n'] ++ joinNL (l2 :: ls2)) = true
        rw [List.append_assoc]
        exact infixB_append_left x l _
          (infixB_append_left x ['\n'] _ (ih h))

theorem buildRescuedInner_inv (tl : Str) :
    ∀ (pairs : List (Str × ℤ)) (st : List Str × List Str),
      st.2 = st.1.map toLowerL → st.2.Nodup →
      (∀ t ∈ st.1, infixB (toLowerL t) tl = false) →
      ((buildRescuedInner tl pairs st).2 =
          (buildRescuedInner tl pairs st).1.map toLowerL ∧
        (buildRescuedInner tl pairs st).2.Nodup ∧
        ∀ t ∈ (buildRescuedInner tl pairs st).1,
          infixB (toLowerL t) tl = false) := by
  intro pairs
  induction pairs with
  | nil =>
    intro st h1 h2 h3
    exact ⟨h1, h2, h3⟩
  | cons lp rest ih =>
    intro st h1 h2 h3
    obtain ⟨rescued, seen⟩ := st
    obtain ⟨label, score⟩ := lp
    simp only at h1 h2 h3
    show (buildRescuedInner tl ((label, score) :: rest) (rescued, seen)).2 = _ ∧ _
    rw [buildRescuedInner]
    by_cases hterm : stripL label = []
    · rw [if_pos hterm]
      exact ih (rescued, seen) h1 h2 h3
    · rw [if_neg hterm]
      by_cases hcond : infixB (toLowerL (stripL label)) tl = false ∧
          toLowerL (stripL label) ∉ seen
      · rw [if_pos hcond]
        refine ih (rescued ++ [stripL label], seen ++ [toLowerL (stripL label)])
          ?_ ?_ ?_
        · simp [h1]
        · rw [List.nodup_append]
          refine ⟨h2, List.nodup_singleton _, ?_⟩
          intro a ha hb
          rcases List.mem_singleton.mp hb with rfl
          exact hcond.2 ha
        · intro t ht
          rcases List.mem_append.mp ht with ht | ht
          · exact h3 t ht
          · rcases List.mem_singleton.mp ht with rfl
            exact hcond.1
      · rw [if_neg hcond]
        exact ih (rescued, seen) h1 h2 h3

theorem buildRescuedGo_inv (tl : Str) :
    ∀ (vt : List (ℕ × List (Str × ℤ))) (st : List Str × List Str),
      st.2 = st.1.map toLowerL → st.2.Nodup →
      (∀ t ∈ st.1, infixB (toLowerL t) tl = false) →
      ((buildRescuedGo tl vt st).2 = (buildRescuedGo tl vt st).1.map toLowerL ∧
        (buildRescuedGo tl vt st).2.Nodup ∧
        ∀ t ∈ (buildRescuedGo tl vt st).1, infixB (toLowerL t) tl = false) := by
  intro vt
  induction vt with
  | nil =>
    intro st h1 h2 h3
    exact ⟨h1, h2, h3⟩
  | cons pv rest ih =>
    intro st h1 h2 h3
    obtain ⟨page, pairs⟩ := pv
    show (buildRescuedGo tl ((page, pairs) :: rest) st).2 = _ ∧ _
    rw [buildRescuedGo]
    obtain ⟨g1, g2, g3⟩ := buildRescuedInner_inv tl pairs st h1 h2 h3
    exact ih (buildRescuedInner tl pairs st) g1 g2 g3

theorem buildRescued_not_in_text (vt : List (ℕ × List (Str × ℤ))) (tl : Str) :
    ∀ t ∈ buildRescued vt tl, infixB (toLowerL t) tl = false :=
  (buildRescuedGo_inv tl vt ([], []) rfl (List.nodup_nil) (by simp)).2.2

theorem buildRescued_nodup (vt : List (ℕ × List (Str × ℤ))) (tl : Str) :
    ((buildRescued vt tl).map toLowerL).Nodup := by
  obtain ⟨h1, h2, -⟩ :=
    buildRescuedGo_inv tl vt ([], []) rfl (List.nodup_nil) (by simp)
  rw [buildRescued, ← h1]
  exact h2

theorem rescueApply_rescued_terms (vt : List (ℕ × List (Str × ℤ))) (m : Mid) :
    (rescueApply vt m).rescued_terms = buildRescued vt (toLowerL m.text) := by
  simp only [rescueApply]
  split <;> rfl

theorem rescueApply_text (vt : List (ℕ × List (Str × ℤ))) (m : Mid) :
    (rescueApply vt m).text =
      if buildRescued vt (toLowerL m.text) ≠ [] then
        m.text ++ appendixTitle ++
          joinNL (((buildRescued vt (toLowerL m.text)).take 30).map
            (fun t => "- ".toList ++ t))
      else m.text := by
  simp only [rescueApply]
  split
  · simp [List.append_assoc]
  · rfl

theorem ocr_no_deps (raster : ℤ → ℕ → ℕ → Option (List ℕ))
    (ocrImage : Str → ℕ → Str) (pages : List ℕ) (dpi : ℤ) (cfg : Str)
    (bs : ℕ) (e : ℚ) :
    _ocr_pdf_pages false raster ocrImage pages dpi cfg bs e = ([], 0, 0) := by
  simp [_ocr_pdf_pages]

theorem plumberMid_no_ocr_text (req : Request) (C : Collab)
    (hp2i : C.hasPdf2Image = false) :
    (plumberMid req C).text = (_pdfplumber_extract true C.doc).1 := by
  have hdeps : (C.hasPdf2Image && C.hasTesseract) = false := by simp [hp2i]
  simp only [plumberMid, hdeps, ocr_no_deps]
  repeat' split
  all_goals simp_all

theorem plumberMid_no_ocr_ppwc (req : Request) (C : Collab)
    (hp2i : C.hasPdf2Image = false) :
    (plumberMid req C).per_page_word_counts =
      (_pdfplumber_extract true C.doc).2.2.per_page_word_counts := by
  have hdeps : (C.hasPdf2Image && C.hasTesseract) = false := by simp [hp2i]
  simp only [plumberMid, hdeps, ocr_no_deps]
  repeat' split
  all_goals simp_all

theorem plumberMid_pages (req : Request) (C : Collab) :
    (plumberMid req C).pages = some (_pdfplumber_extract true C.doc).2.1 := by
  simp only [plumberMid]
  repeat' split
  all_goals rfl

theorem finishUp_rescued_terms (req : Request) (C : Collab) (b : Bool) (m : Mid) :
    (finishUp req C b m).rescued_terms = m.rescued_terms := rfl

theorem finishUp_rescued_count (req : Request) (C : Collab) (b : Bool) (m : Mid) :
    (finishUp req C b m).rescued_terms_count = m.rescued_terms.length := rfl

set_option maxRecDepth 4000 in
/-- C8 counterexample: with 31 distinct labels absent from the text, the
returned `rescued_terms` list has 31 entries (the cap applies only to the
appendix slice `rescued_terms[:30]`), and the 31st reported term is not
appended to the text. -/
theorem rescued_terms_cap_counterexample :
    (extract_text_detailed { baseReq with mode := "complete".toList }
        { baseCollab (docOfTexts [['z']]) with
            hasClip := true,
            clip := fun _ => some [(1, (List.range 31).map
              (fun i => ("b".toList ++ (toString i).toList, (0 : ℤ))))] }
      ).rescued_terms.length = 31 ∧
    "b30".toList ∈ (extract_text_detailed { baseReq with mode := "complete".toList }
        { baseCollab (docOfTexts [['z']]) with
            hasClip := true,
            clip := fun _ => some [(1, (List.range 31).map
              (fun i => ("b".toList ++ (toString i).toList, (0 : ℤ))))] }
      ).rescued_terms ∧
    infixB "b30".toList (extract_text_detailed { baseReq with mode := "complete".toList }
        { baseCollab (docOfTexts [['z']]) with
            hasClip := true,
            clip := fun _ => some [(1, (List.range 31).map
              (fun i => ("b".toList ++ (toString i).toList, (0 : ℤ))))] }
      ).text = false := ⟨by decide, by decide, by decide⟩

/-- C8 amended: in complete mode with the rescuer's dependencies present
(and the OCR stack absent, so the text entering rescue is the native
pdfplumber text), the reported `rescued_terms` list contains only terms
whose lowercase form is not a substring of the extracted text, has no
case-insensitive duplicates, and is reported together with its count as
separate fields; only its first 30 entries are appended to the text as a
titled appendix section — the list itself is not capped at 30. -/
theorem rescued_terms_properties (req : Request) (C : Collab)
    (vt : List (ℕ × List (Str × ℤ)))
    (hmime : pdfTest (toLowerL (pyOr2 (req.content_type_hint.getD [])
        (C.detected.getD []))) (toLowerL req.file_url) = true)
    (hpl : C.hasPlumber = true) (hok : C.doc.ok = true)
    (hpg : C.doc.pages.length ≠ 0)
    (hmode : req.mode = "complete".toList)
    (hdocx : C.hasDocx = false) (hclip : C.hasClip = true)
    (hp2i : C.hasPdf2Image = false)
    (hvt : C.clip (rescueCandidates req.ocr_trigger_threshold
        req.coverage_word_threshold req.coverage_target req.max_ocr_pages
        C.doc.pages.length
        (_pdfplumber_extract true C.doc).2.2.per_page_word_counts) = some vt) :
    let R := extract_text_detailed req C
    let pdf_text := (_pdfplumber_extract true C.doc).1
    let rescued := buildRescued vt (toLowerL pdf_text)
    R.rescued_terms = rescued ∧
    R.rescued_terms_count = rescued.length ∧
    (∀ t ∈ rescued, infixB (toLowerL t) (toLowerL pdf_text) = false) ∧
    (rescued.map toLowerL).Nodup ∧
    (∀ t ∈ rescued.take 30,
      infixB ("- ".toList ++ t) (plumberBranch req C).1.text = true) := by
  intro R pdf_text rescued
  have hmtext : (plumberMid req C).text = pdf_text :=
    plumberMid_no_ocr_text req C hp2i
  have hmppwc : (plumberMid req C).per_page_word_counts =
      (_pdfplumber_extract true C.doc).2.2.per_page_word_counts :=
    plumberMid_no_ocr_ppwc req C hp2i
  have hmpages : (plumberMid req C).pages = some C.doc.pages.length := by
    rw [plumberMid_pages req C, plumber_pages_length C.doc hok]
  have hpb : plumberBranch req C = (rescueApply vt (plumberMid req C), none) := by
    simp [plumberBranch, branchRescue, hmpages, hmppwc, hdocx, hclip,
      hmode, hpg, hvt]
  have hbody : extractBody req C Format.pdf = rescueApply vt (plumberMid req C) := by
    simp only [extractBody]
    rw [if_pos (show C.hasPlumber = true from hpl), hpb]
  have hfmt : classifyFormat
      (toLowerL (pyOr2 (req.content_type_hint.getD []) (C.detected.getD [])))
      (toLowerL req.file_url) = Format.pdf := by
    simp [classifyFormat, hmime]
  have hRdef : R = finishUp req C
      (pdfTest (toLowerL (pyOr2 (req.content_type_hint.getD []) (C.detected.getD [])))
        (toLowerL req.file_url))
      (rescueApply vt (plumberMid req C)) := by
    show extract_text_detailed req C = _
    simp only [extract_text_detailed]
    rw [hfmt, hbody]
  have hrt : R.rescued_terms = rescued := by
    rw [hRdef, finishUp_rescued_terms, rescueApply_rescued_terms, hmtext]
  refine ⟨hrt, ?_, ?_, ?_, ?_⟩
  · rw [hRdef, finishUp_rescued_count, rescueApply_rescued_terms, hmtext]
  · exact buildRescued_not_in_text vt (toLowerL pdf_text)
  · exact buildRescued_nodup vt (toLowerL pdf_text)
  · intro t ht
    have hne : rescued ≠ [] := by
      intro h
      rw [h] at ht
      simp at ht
    have htext : (plumberBranch req C).1.text =
        (plumberMid req C).text ++ appendixTitle ++
          joinNL ((rescued.take 30).map (fun s => "- ".toList ++ s)) := by
      rw [hpb]
      show (rescueApply vt (plumberMid req C)).text = _
      rw [rescueApply_text, hmtext, if_pos hne]
    rw [htext, List.append_assoc]
    apply infixB_append_left
    apply infixB_append_left
    apply mem_joinNL_infixB
    exact List.mem_map.mpr ⟨t, ht, rfl⟩

theorem rescued_terms_properties_witness :
    let req : Request := { baseReq with mode := "complete".toList }
    let C : Collab := { baseCollab (docOfTexts [['z']]) with
        hasClip := true,
        clip := fun _ => some [(1, [("alpha".toList, (0 : ℤ))])] }
    let vt : List (ℕ × List (Str × ℤ)) := [(1, [("alpha".toList, (0 : ℤ))])]
    let R := extract_text_detailed req C
    let pdf_text := (_pdfplumber_extract true C.doc).1
    let rescued := buildRescued vt (toLowerL pdf_text)
    R.rescued_terms = rescued ∧
    R.rescued_terms_count = rescued.length ∧
    (∀ t ∈ rescued, infixB (toLowerL t) (toLowerL pdf_text) = false) ∧
    (rescued.map toLowerL).Nodup ∧
    (∀ t ∈ rescued.take 30,
      infixB ("- ".toList ++ t) (plumberBranch req C).1.text = true) :=
  rescued_terms_properties _ _ [(1, [("alpha".toList, (0 : ℤ))])]
    (by decide) (by decide) (by decide) (by decide) (by decide) (by decide)
    (by decide) (by decide) (by decide)

/-! ## C2 — post-reconciliation coverage

Stripping a page text does not change its word count; the lemmas up to
`to_word_count_stripL` establish this so that the reported per-page word
counts (computed from unstripped page renders on the no-OCR paths, from
stripped chosen texts on the reconciliation path) can be related
uniformly to the chosen per-page texts. -/

theorem stripL_eq_nil_iff (w : Str) :
    stripL w = [] ↔ ∀ c ∈ w, isPySpace c = true := by
  constructor
  · intro h c hc
    unfold stripL rstripL lstripL at h
    by_cases hl : List.dropWhile isPySpace w = []
    · exact List.dropWhile_eq_nil_iff.mp hl c hc
    · exfalso
      have h' : List.dropWhile isPySpace (List.dropWhile isPySpace w).reverse = [] := by
        have := congrArg List.reverse h
        simpa using this
      have hall := List.dropWhile_eq_nil_iff.mp h'
      cases hd : List.dropWhile isPySpace w with
      | nil => exact hl hd
      | cons a t =>
        have ha : isPySpace a = false := by
          have := List.head?_dropWhile_not isPySpace w
          rw [hd] at this
          simpa using this
        have : isPySpace a = true := hall a (by simp [hd])
        rw [ha] at this
        exact Bool.false_ne_true this
  · intro h
    unfold stripL
    have hl : lstripL w = [] := List.dropWhile_eq_nil_iff.mpr h
    rw [hl]
    rfl

theorem splitSp_ne_nil (l : Str) : splitSp l ≠ [] := by
  cases l with
  | nil => simp [splitSp]
  | cons c rest =>
    by_cases hc : c = ' '
    · subst hc
      simp [splitSp]
    · rw [splitSp.eq_def]
      split
      · simp
      · simp
      · split <;> simp

theorem splitSp_cons_ne (c : Char) (t : Str) (hc : c ≠ ' ') :
    splitSp (c :: t) = (c :: (splitSp t).headI) :: (splitSp t).tail := by
  rw [splitSp.eq_def]
  split
  · rename_i heq
    simp at heq
  · rename_i rest heq
    injection heq with h1 _
    exact absurd h1 hc
  · rename_i c' rest hne heq
    injection heq with h1 h2
    subst h1
    subst h2
    cases hs : splitSp t with
    | nil => exact absurd hs (splitSp_ne_nil t)
    | cons h ts => simp

theorem splitSp_append_space (l : Str) : splitSp (l ++ [' ']) = splitSp l ++ [[]] := by
  induction l with
  | nil => rfl
  | cons c rest ih =>
    by_cases hc : c = ' '
    · subst hc
      show splitSp (' ' :: (rest ++ [' '])) = ([] :: splitSp rest) ++ [[]]
      rw [show splitSp (' ' :: (rest ++ [' '])) = [] :: splitSp (rest ++ [' ']) from rfl,
        ih]
      rfl
    · show splitSp (c :: (rest ++ [' '])) = splitSp (c :: rest) ++ [[]]
      rw [splitSp_cons_ne c (rest ++ [' ']) hc, splitSp_cons_ne c rest hc, ih]
      cases hs : splitSp rest with
      | nil => exact absurd hs (splitSp_ne_nil rest)
      | cons h ts => simp

theorem splitSp_append_char (c : Char) (hc : c ≠ ' ') :
    ∀ l : Str, ∃ A a, splitSp l = A ++ [a] ∧ splitSp (l ++ [c]) = A ++ [a ++ [c]] := by
  intro l
  induction l with
  | nil =>
    refine ⟨[], [], rfl, ?_⟩
    rw [show ([] : Str) ++ [c] = [c] from rfl, splitSp_cons_ne c [] hc]
    rfl
  | cons d rest ih =>
    obtain ⟨A, a, h1, h2⟩ := ih
    by_cases hd : d = ' '
    · subst hd
      refine ⟨[] :: A, a, ?_, ?_⟩
      · show [] :: splitSp rest = _
        rw [h1]
        rfl
      · show [] :: splitSp (rest ++ [c]) = _
        rw [h2]
        rfl
    · cases A with
      | nil =>
        refine ⟨[], d :: a, ?_, ?_⟩
        · rw [splitSp_cons_ne d rest hd, h1]
          simp
        · rw [List.cons_append, splitSp_cons_ne d (rest ++ [c]) hd, h2]
          simp
      | cons A0 A' =>
        refine ⟨(d :: A0) :: A', a, ?_, ?_⟩
        · rw [splitSp_cons_ne d rest hd, h1]
          simp
        · rw [List.cons_append, splitSp_cons_ne d (rest ++ [c]) hd, h2]
          simp

theorem nlToSpace_space (ch : Char) (h : isPySpace ch = true) :
    isPySpace (if ch = '\n' then ' ' else ch) = true := by
  by_cases hn : ch = '\n'
  · rw [if_pos hn]
    decide
  · rwa [if_neg hn]

theorem blank_append_space (a : Str) (ch : Char) (h : isPySpace ch = true) :
    (stripL (a ++ [ch]) = []) ↔ (stripL a = []) := by
  rw [stripL_eq_nil_iff, stripL_eq_nil_iff]
  constructor
  · intro hall c hc
    exact hall c (List.mem_append_left _ hc)
  · intro hall c hc
    rcases List.mem_append.mp hc with hc | hc
    · exact hall c hc
    · rcases List.mem_singleton.mp hc with rfl
      exact h

theorem blank_cons_space (a : Str) (ch : Char) (h : isPySpace ch = true) :
    (stripL (ch :: a) = []) ↔ (stripL a = []) := by
  rw [stripL_eq_nil_iff, stripL_eq_nil_iff]
  constructor
  · intro hall c hc
    exact hall c (List.mem_cons_of_mem _ hc)
  · intro hall c hc
    rcases List.mem_cons.mp hc with rfl | hc
    · exact h
    · exact hall c hc

theorem to_word_count_append_space (t : Str) (ch : Char) (h : isPySpace ch = true) :
    to_word_count (t ++ [ch]) = to_word_count t := by
  unfold to_word_count
  have hmap : nlToSpace (t ++ [ch]) =
      nlToSpace t ++ [if ch = '\n' then ' ' else ch] := by
    simp [nlToSpace]
  rw [hmap]
  have hsp := nlToSpace_space ch h
  by_cases hc : (if ch = '\n' then ' ' else ch) = ' '
  · rw [hc, splitSp_append_space, List.filter_append]
    simp [stripL, lstripL, rstripL]
  · obtain ⟨A, a, h1, h2⟩ := splitSp_append_char _ hc (nlToSpace t)
    rw [h1, h2, List.filter_append, List.filter_append]
    have hb := blank_append_space a _ hsp
    by_cases hba : stripL a = []
    · have hbb : stripL (a ++ [if ch = '\n' then ' ' else ch]) = [] := hb.mpr hba
      simp [hba, hbb]
    · have hbb : ¬stripL (a ++ [if ch = '\n' then ' ' else ch]) = [] :=
        fun hh => hba (hb.mp hh)
      simp [hba, hbb]

theorem to_word_count_cons_space (t : Str) (ch : Char) (h : isPySpace ch = true) :
    to_word_count (ch :: t) = to_word_count t := by
  unfold to_word_count
  have hmap : nlToSpace (ch :: t) =
      (if ch = '\n' then ' ' else ch) :: nlToSpace t := rfl
  rw [hmap]
  have hsp := nlToSpace_space ch h
  by_cases hc : (if ch = '\n' then ' ' else ch) = ' '
  · rw [hc]
    rw [show splitSp (' ' :: nlToSpace t) = [] :: splitSp (nlToSpace t) from rfl]
    simp [stripL, lstripL, rstripL]
  · rw [splitSp_cons_ne _ _ hc]
    cases hs : splitSp (nlToSpace t) with
    | nil => exact absurd hs (splitSp_ne_nil _)
    | cons h0 ts =>
      simp only [List.headI, List.tail]
      rw [List.filter_cons, List.filter_cons]
      have hblank : (decide (stripL ((if ch = '\n' then ' ' else ch) :: h0) ≠ [])) =
          (decide (stripL h0 ≠ [])) := by
        simp only [decide_eq_decide]
        rw [not_iff_not]
        exact blank_cons_space h0 _ hsp
      rw [hblank]
      by_cases hb : (decide (stripL h0 ≠ [])) = true
      · rw [hb]
        simp
      · rw [Bool.eq_false_iff.mpr hb]
        simp

theorem to_word_count_append_all_space :
    ∀ (suf : Str), (∀ c ∈ suf, isPySpace c = true) →
      ∀ u : Str, to_word_count (u ++ suf) = to_word_count u := by
  intro suf
  induction suf with
  | nil => intro _ u; simp
  | cons c rest ih =>
    intro hall u
    have : u ++ c :: rest = (u ++ [c]) ++ rest := by simp
    rw [this, ih (fun x hx => hall x (List.mem_cons_of_mem _ hx)),
      to_word_count_append_space u c (hall c (List.mem_cons_self c rest))]

theorem to_word_count_cons_all_space :
    ∀ (pre : Str), (∀ c ∈ pre, isPySpace c = true) →
      ∀ u : Str, to_word_count (pre ++ u) = to_word_count u := by
  intro pre
  induction pre with
  | nil => intro _ u; simp
  | cons c rest ih =>
    intro hall u
    show to_word_count (c :: (rest ++ u)) = _
    rw [to_word_count_cons_space _ c (hall c (List.mem_cons_self c rest)),
      ih (fun x hx => hall x (List.mem_cons_of_mem _ hx))]

theorem rstripL_decomp (t : Str) :
    ∃ suf, t = rstripL t ++ suf ∧ ∀ c ∈ suf, isPySpace c = true := by
  refine ⟨(t.reverse.takeWhile isPySpace).reverse, ?_, ?_⟩
  · conv_lhs => rw [← List.reverse_reverse t,
      ← List.takeWhile_append_dropWhile isPySpace t.reverse]
    rw [List.reverse_append]
    rfl
  · intro c hc
    rw [List.mem_reverse] at hc
    exact List.mem_takeWhile_imp hc

theorem to_word_count_stripL (s : Str) :
    to_word_count (stripL s) = to_word_count s := by
  have h1 : to_word_count s = to_word_count (lstripL s) := by
    conv_lhs => rw [← List.takeWhile_append_dropWhile isPySpace s]
    exact to_word_count_cons_all_space _
      (fun c hc => List.mem_takeWhile_imp hc) _
  obtain ⟨suf, hdec, hsuf⟩ := rstripL_decomp (lstripL s)
  have h2 : to_word_count (lstripL s) = to_word_count (stripL s) := by
    conv_lhs => rw [hdec]
    exact to_word_count_append_all_space suf hsuf _
  rw [h1, h2]

/-- The per-page chosen texts of a run, mirroring the branch structure of
the pdfplumber path: the reconciled texts when OCR ran and produced a
non-empty map, the native per-page texts otherwise. -/
def chosenTextsOf (req : Request) (C : Collab) : List Str :=
  let pr := _pdfplumber_extract true C.doc
  let pages := pr.2.1
  let meta := pr.2.2
  if (req.enable_ocr || req.mode = "complete".toList) ∧ pages ≠ 0 then
    let candidates := ocrCandidates req.full_ocr req.ocr_trigger_threshold
      meta.per_page_word_counts pages
    if candidates ≠ [] then
      let candidates := truncCands req.max_ocr_pages candidates
      let r := _ocr_pdf_pages (C.hasPdf2Image && C.hasTesseract) C.raster
        C.ocrImage candidates req.dpi req.ocr_config req.ocr_page_batch_size
        C.elapsed
      if r.1 ≠ [] then
        reconcileTexts req.ocr_word_gain_threshold meta.per_page_texts r.1 pages
      else meta.per_page_texts
    else meta.per_page_texts
  else meta.per_page_texts

theorem plumber_counts_eq (doc : PlumberDoc) :
    (_pdfplumber_extract true doc).2.2.per_page_word_counts =
      (_pdfplumber_extract true doc).2.2.per_page_texts.map to_word_count := by
  by_cases hok : doc.ok = true
  · simp only [_pdfplumber_extract, hok]
    simp [List.map_map]
    intro x _
    exact (to_word_count_stripL (pageRender x)).symm
  · have hok' : doc.ok = false := by simpa using hok
    simp [_pdfplumber_extract, hok']

theorem plumber_texts_length (doc : PlumberDoc) :
    (_pdfplumber_extract true doc).2.2.per_page_texts.length =
      (_pdfplumber_extract true doc).2.1 := by
  by_cases hok : doc.ok = true
  · simp [_pdfplumber_extract, hok]
  · have hok' : doc.ok = false := by simpa using hok
    simp [_pdfplumber_extract, hok']

theorem plumberMid_ppwc_chosen (req : Request) (C : Collab) :
    (plumberMid req C).per_page_word_counts =
      (chosenTextsOf req C).map to_word_count := by
  simp only [plumberMid, chosenTextsOf]
  repeat' split
  all_goals simp [plumber_counts_eq C.doc]

theorem chosenTextsOf_length (req : Request) (C : Collab) :
    (chosenTextsOf req C).length = (_pdfplumber_extract true C.doc).2.1 := by
  simp only [chosenTextsOf]
  repeat' split
  all_goals simp [reconcileTexts_length, plumber_texts_length C.doc]

/-! ### `lowIdx` characterisation -/

theorem lowIdxGo_mem (t : ℤ) :
    ∀ (l : List ℕ) (k i : ℕ),
      i ∈ lowIdxGo k t l ↔
        (k + 1 ≤ i ∧ i ≤ k + l.length ∧ (l.getD (i - 1 - k) 0 : ℤ) < t) := by
  intro l
  induction l with
  | nil =>
    intro k i
    simp [lowIdxGo]
    omega
  | cons wc rest ih =>
    intro k i
    by_cases hwc : (wc : ℤ) < t
    · rw [lowIdxGo, if_pos hwc]
      rw [List.mem_cons, ih (k + 1) i]
      constructor
      · rintro (rfl | ⟨ha, hb, hcv⟩)
        · refine ⟨by omega, by simp only [List.length_cons]; omega, ?_⟩
          rw [show k + 1 - 1 - k = 0 from by omega]
          simpa using hwc
        · refine ⟨by omega, by simp only [List.length_cons]; omega, ?_⟩
          rw [show i - 1 - k = (i - 1 - (k + 1)) + 1 from by omega,
            List.getD_cons_succ]
          exact hcv
      · rintro ⟨ha, hb, hcv⟩
        by_cases hik : i = k + 1
        · exact Or.inl hik
        · refine Or.inr ⟨by omega, by simp only [List.length_cons] at hb; omega, ?_⟩
          rw [show i - 1 - k = (i - 1 - (k + 1)) + 1 from by omega,
            List.getD_cons_succ] at hcv
          exact hcv
    · rw [lowIdxGo, if_neg hwc]
      rw [ih (k + 1) i]
      constructor
      · rintro ⟨ha, hb, hcv⟩
        refine ⟨by omega, by simp only [List.length_cons] at hb ⊢; omega, ?_⟩
        rw [show i - 1 - k = (i - 1 - (k + 1)) + 1 from by omega,
          List.getD_cons_succ]
        exact hcv
      · rintro ⟨ha, hb, hcv⟩
        have hik : i ≠ k + 1 := by
          intro hik
          subst hik
          rw [show k + 1 - 1 - k = 0 from by omega] at hcv
          simp at hcv
          omega
        refine ⟨by omega, by simp only [List.length_cons] at hb; omega, ?_⟩
        rw [show i - 1 - k = (i - 1 - (k + 1)) + 1 from by omega,
          List.getD_cons_succ] at hcv
        exact hcv

theorem lowIdx_mem (ppwc : List ℕ) (t : ℤ) (i : ℕ) :
    i ∈ lowIdx ppwc t ↔
      (1 ≤ i ∧ i ≤ ppwc.length ∧ (ppwc.getD (i - 1) 0 : ℤ) < t) := by
  rw [lowIdx, lowIdxGo_mem t ppwc 0 i]
  constructor
  · rintro ⟨h1, h2, h3⟩
    exact ⟨h1, by omega, by rwa [show i - 1 - 0 = i - 1 from by omega] at h3⟩
  · rintro ⟨h1, h2, h3⟩
    exact ⟨h1, by omega, by rwa [show i - 1 - 0 = i - 1 from by omega]⟩

theorem lowIdxGo_gt (t : ℤ) :
    ∀ (l : List ℕ) (k : ℕ), ∀ i ∈ lowIdxGo k t l, k < i := by
  intro l k i hi
  exact (lowIdxGo_mem t l k i).mp hi |>.1

theorem lowIdxGo_chain (t : ℤ) :
    ∀ (l : List ℕ) (k : ℕ), (lowIdxGo k t l).Chain' (· < ·) := by
  intro l
  induction l with
  | nil => intro k; simp [lowIdxGo]
  | cons wc rest ih =>
    intro k
    by_cases hwc : (wc : ℤ) < t
    · rw [lowIdxGo, if_pos hwc]
      rw [List.chain'_cons']
      refine ⟨?_, ih (k + 1)⟩
      intro y hy
      have hmem : y ∈ lowIdxGo (k + 1) t rest := List.mem_of_mem_head? hy
      exact lowIdxGo_gt t rest (k + 1) y hmem
    · rw [lowIdxGo, if_neg hwc]
      exact ih (k + 1)

theorem lowIdx_chain (ppwc : List ℕ) (t : ℤ) :
    (lowIdx ppwc t).Chain' (· < ·) := lowIdxGo_chain t ppwc 0

/-! ### Field preservation through rescue and exception handling -/

theorem rescueApply_ppwc (vt : List (ℕ × List (Str × ℤ))) (m : Mid) :
    (rescueApply vt m).per_page_word_counts = m.per_page_word_counts := by
  simp only [rescueApply]
  split <;> rfl

theorem rescueApply_pages (vt : List (ℕ × List (Str × ℤ))) (m : Mid) :
    (rescueApply vt m).pages = m.pages := by
  simp only [rescueApply]
  split <;> rfl

theorem branchRescue_fst_ppwc (req : Request) (hasDocx hasClip : Bool)
    (clip : List ℕ → Option (List (ℕ × List (Str × ℤ)))) (m : Mid) :
    (branchRescue req hasDocx hasClip clip m).1.per_page_word_counts =
      m.per_page_word_counts := by
  simp only [branchRescue]
  split
  · split
    · rfl
    · split
      · split
        · rfl
        · exact rescueApply_ppwc _ _
      · rfl
  · rfl

theorem branchRescue_fst_pages (req : Request) (hasDocx hasClip : Bool)
    (clip : List ℕ → Option (List (ℕ × List (Str × ℤ)))) (m : Mid) :
    (branchRescue req hasDocx hasClip clip m).1.pages = m.pages := by
  simp only [branchRescue]
  split
  · split
    · rfl
    · split
      · split
        · rfl
        · exact rescueApply_pages _ _
      · rfl
  · rfl

theorem extractBody_pdf_ppwc (req : Request) (C : Collab)
    (hpl : C.hasPlumber = true) :
    (extractBody req C Format.pdf).per_page_word_counts =
      (plumberMid req C).per_page_word_counts := by
  unfold extractBody
  rw [hpl]
  cases hpb : plumberBranch req C with
  | mk m exc =>
    have hm : m.per_page_word_counts = (plumberMid req C).per_page_word_counts := by
      have := branchRescue_fst_ppwc req C.hasDocx C.hasClip C.clip (plumberMid req C)
      rw [show branchRescue req C.hasDocx C.hasClip C.clip (plumberMid req C) =
        plumberBranch req C from rfl, hpb] at this
      exact this
    cases exc <;> simpa using hm

theorem extractBody_pdf_pages (req : Request) (C : Collab)
    (hpl : C.hasPlumber = true) :
    (extractBody req C Format.pdf).pages = (plumberMid req C).pages := by
  unfold extractBody
  rw [hpl]
  cases hpb : plumberBranch req C with
  | mk m exc =>
    have hm : m.pages = (plumberMid req C).pages := by
      have := branchRescue_fst_pages req C.hasDocx C.hasClip C.clip (plumberMid req C)
      rw [show branchRescue req C.hasDocx C.hasClip C.clip (plumberMid req C) =
        plumberBranch req C from rfl, hpb] at this
      exact this
    cases exc <;> simpa using hm

theorem finishUp_ppwc (req : Request) (C : Collab) (b : Bool) (m : Mid) :
    (finishUp req C b m).per_page_word_counts = m.per_page_word_counts := rfl

theorem finishUp_cov (req : Request) (C : Collab) (b : Bool) (m : Mid)
    (hb : b = true) (h0 : 0 < m.pages.getD 0)
    (hne : m.per_page_word_counts ≠ []) :
    (finishUp req C b m).low_density_pages =
      lowIdx m.per_page_word_counts req.coverage_word_threshold ∧
    (finishUp req C b m).coverage_pct =
      pyRound2 (((m.pages.getD 0 : ℚ) -
          (lowIdx m.per_page_word_counts req.coverage_word_threshold).length) /
        (m.pages.getD 0 : ℚ) * 100) := by
  subst hb
  simp only [finishUp]
  rw [if_pos ⟨True.intro, h0, hne⟩, if_pos ⟨True.intro, h0, hne⟩]
  exact ⟨rfl, rfl⟩

/-- C2 counterexample: with 3 pages and one low-density page, the code
reports `round(100 * 2 / 3, 2) = 66.67`, not the exact
`100 * (3 - 1) / 3 = 200/3` required by the claim's formula. -/
theorem coverage_rounding_counterexample :
    (extract_text_detailed baseReq
        (baseCollab (docOfTexts [wtxt 12, wtxt 1, wtxt 20]))).low_density_pages = [2] ∧
    (extract_text_detailed baseReq
        (baseCollab (docOfTexts [wtxt 12, wtxt 1, wtxt 20]))).coverage_pct =
      6667 / 100 ∧
    (extract_text_detailed baseReq
        (baseCollab (docOfTexts [wtxt 12, wtxt 1, wtxt 20]))).coverage_pct ≠
      100 * (3 - 1) / 3 := by
  have hRdef : extract_text_detailed baseReq
      (baseCollab (docOfTexts [wtxt 12, wtxt 1, wtxt 20])) =
      finishUp baseReq (baseCollab (docOfTexts [wtxt 12, wtxt 1, wtxt 20]))
        (pdfTest (toLowerL (pyOr2 (baseReq.content_type_hint.getD [])
            ((baseCollab (docOfTexts [wtxt 12, wtxt 1, wtxt 20])).detected.getD [])))
          (toLowerL baseReq.file_url))
        (extractBody baseReq (baseCollab (docOfTexts [wtxt 12, wtxt 1, wtxt 20]))
          (classifyFormat (toLowerL (pyOr2 (baseReq.content_type_hint.getD [])
              ((baseCollab (docOfTexts [wtxt 12, wtxt 1, wtxt 20])).detected.getD [])))
            (toLowerL baseReq.file_url))) := rfl
  obtain ⟨hld, hcov⟩ := finishUp_cov baseReq
    (baseCollab (docOfTexts [wtxt 12, wtxt 1, wtxt 20]))
    (pdfTest (toLowerL (pyOr2 (baseReq.content_type_hint.getD [])
        ((baseCollab (docOfTexts [wtxt 12, wtxt 1, wtxt 20])).detected.getD [])))
      (toLowerL baseReq.file_url))
    (extractBody baseReq (baseCollab (docOfTexts [wtxt 12, wtxt 1, wtxt 20]))
      (classifyFormat (toLowerL (pyOr2 (baseReq.content_type_hint.getD [])
          ((baseCollab (docOfTexts [wtxt 12, wtxt 1, wtxt 20])).detected.getD [])))
        (toLowerL baseReq.file_url)))
    (by decide) (by decide) (by decide)
  have hp : (extractBody baseReq (baseCollab (docOfTexts [wtxt 12, wtxt 1, wtxt 20]))
      (classifyFormat (toLowerL (pyOr2 (baseReq.content_type_hint.getD [])
          ((baseCollab (docOfTexts [wtxt 12, wtxt 1, wtxt 20])).detected.getD [])))
        (toLowerL baseReq.file_url))).pages.getD 0 = 3 := by decide
  have hl : (lowIdx (extractBody baseReq
      (baseCollab (docOfTexts [wtxt 12, wtxt 1, wtxt 20]))
      (classifyFormat (toLowerL (pyOr2 (baseReq.content_type_hint.getD [])
          ((baseCollab (docOfTexts [wtxt 12, wtxt 1, wtxt 20])).detected.getD [])))
        (toLowerL baseReq.file_url))).per_page_word_counts
      baseReq.coverage_word_threshold).length = 1 := by decide
  rw [hp, hl] at hcov
  have harg : (((3 : ℕ) : ℚ) - ((1 : ℕ) : ℚ)) / ((3 : ℕ) : ℚ) * 100 * 100 =
      20000 / 3 := by push_cast; norm_num
  have hfl : ⌊(20000 : ℚ) / 3⌋ = 6666 := by
    rw [Int.floor_eq_iff]
    constructor <;> norm_num
  have hcov67 : (extract_text_detailed baseReq
      (baseCollab (docOfTexts [wtxt 12, wtxt 1, wtxt 20]))).coverage_pct =
      6667 / 100 := by
    rw [hRdef, hcov]
    simp only [pyRound2, pyRoundHalfEven]
    rw [harg, hfl]
    norm_num
  refine ⟨?_, hcov67, ?_⟩
  · rw [hRdef, hld]
    decide
  · rw [hcov67]
    norm_num

/-- C2 amended: on the pdfplumber path with a known non-zero page count,
`low_density_pages` contains exactly the 1-based indices whose
post-reconciliation word count is strictly below
`coverage_word_threshold` (in increasing order), and `coverage_pct`
equals `100 * (pageCount - len(lowDensityPages)) / pageCount` rounded to
two decimal places (0 when the page count is 0 or unknown); in
particular a page whose native text is below the threshold but whose
chosen text is at or above it does not appear in `low_density_pages`. -/
theorem coverage_post_reconciliation (req : Request) (C : Collab)
    (hmime : pdfTest (toLowerL (pyOr2 (req.content_type_hint.getD [])
        (C.detected.getD []))) (toLowerL req.file_url) = true)
    (hpl : C.hasPlumber = true) (hok : C.doc.ok = true)
    (hpg : C.doc.pages.length ≠ 0) :
    let R := extract_text_detailed req C
    let N := C.doc.pages.length
    let chosen := chosenTextsOf req C
    R.per_page_word_counts = chosen.map to_word_count ∧
    (∀ i : ℕ, i ∈ R.low_density_pages ↔
      (1 ≤ i ∧ i ≤ N ∧
        (to_word_count (chosen.getD (i - 1) []) : ℤ) < req.coverage_word_threshold)) ∧
    R.low_density_pages.Chain' (· < ·) ∧
    R.coverage_pct =
      pyRound2 (((N : ℚ) - R.low_density_pages.length) / (N : ℚ) * 100) ∧
    (∀ i : ℕ, 1 ≤ i → i ≤ N →
      (to_word_count ((_pdfplumber_extract true C.doc).2.2.per_page_texts.getD (i - 1) []) : ℤ) <
        req.coverage_word_threshold →
      ¬((to_word_count (chosen.getD (i - 1) []) : ℤ) < req.coverage_word_threshold) →
      i ∉ R.low_density_pages) := by
  intro R N chosen
  have hplen : (_pdfplumber_extract true C.doc).2.1 = C.doc.pages.length :=
    plumber_pages_length C.doc hok
  have hm_ppwc : (plumberMid req C).per_page_word_counts =
      chosen.map to_word_count := plumberMid_ppwc_chosen req C
  have hm_pages : (plumberMid req C).pages = some N := by
    rw [plumberMid_pages req C, hplen]
  have hb_ppwc := extractBody_pdf_ppwc req C hpl
  have hb_pages := extractBody_pdf_pages req C hpl
  have hfmt : classifyFormat
      (toLowerL (pyOr2 (req.content_type_hint.getD []) (C.detected.getD [])))
      (toLowerL req.file_url) = Format.pdf := by
    simp [classifyFormat, hmime]
  have hRdef : R = finishUp req C
      (pdfTest (toLowerL (pyOr2 (req.content_type_hint.getD []) (C.detected.getD [])))
        (toLowerL req.file_url))
      (extractBody req C Format.pdf) := by
    show extract_text_detailed req C = _
    simp only [extract_text_detailed]
    rw [hfmt]
  have hlen : chosen.length = N := (chosenTextsOf_length req C).trans hplen
  have hppne : (extractBody req C Format.pdf).per_page_word_counts ≠ [] := by
    rw [hb_ppwc, hm_ppwc]
    intro h
    have hlen0 := congrArg List.length h
    rw [List.length_map, hlen, List.length_nil] at hlen0
    exact hpg hlen0
  have h0 : 0 < (extractBody req C Format.pdf).pages.getD 0 := by
    rw [hb_pages, hm_pages]
    simpa using Nat.pos_of_ne_zero hpg
  obtain ⟨hld, hcov⟩ := finishUp_cov req C _ (extractBody req C Format.pdf)
    hmime h0 hppne
  have hld' : R.low_density_pages =
      lowIdx (chosen.map to_word_count) req.coverage_word_threshold := by
    rw [hRdef, hld, hb_ppwc, hm_ppwc]
  have hR_ppwc : R.per_page_word_counts = chosen.map to_word_count := by
    rw [hRdef, finishUp_ppwc, hb_ppwc, hm_ppwc]
  have hmem : ∀ i : ℕ, i ∈ R.low_density_pages ↔
      (1 ≤ i ∧ i ≤ N ∧
        (to_word_count (chosen.getD (i - 1) []) : ℤ) < req.coverage_word_threshold) := by
    intro i
    rw [hld', lowIdx_mem]
    have hgd : (chosen.map to_word_count).getD (i - 1) 0 =
        to_word_count (chosen.getD (i - 1) []) := by
      rw [show (0 : ℕ) = to_word_count [] from rfl, List.getD_map]
    rw [hgd, List.length_map, hlen]
  refine ⟨hR_ppwc, hmem, ?_, ?_, ?_⟩
  · rw [hld']
    exact lowIdx_chain _ _
  · have hNN : (extractBody req C Format.pdf).pages.getD 0 = N := by
      rw [hb_pages, hm_pages]
      rfl
    rw [hld', hRdef, hcov, hb_ppwc, hm_ppwc, hNN]
  · intro i h1 h2 _ hnot
    intro hmem'
    exact hnot (((hmem i).mp hmem').2.2)

/-- Witness for the amended coverage theorem on a concrete three-page
document: the reported per-page word counts equal the word counts of the
post-reconciliation chosen texts. -/
theorem coverage_post_reconciliation_witness :
    (extract_text_detailed baseReq
        (baseCollab (docOfTexts [wtxt 12, wtxt 1, wtxt 20]))).per_page_word_counts =
      (chosenTextsOf baseReq
        (baseCollab (docOfTexts [wtxt 12, wtxt 1, wtxt 20]))).map to_word_count :=
  (coverage_post_reconciliation baseReq
    (baseCollab (docOfTexts [wtxt 12, wtxt 1, wtxt 20]))
    (by decide) (by decide) (by decide) (by decide)).1

/-! ## C7: properties of the text normalizer -/

theorem splitStep_break (c : Char) (hb : isLineBreak c = true) (r : List Str) :
    splitStep c r = [] :: r := by
  cases r <;> simp [splitStep, hb]

theorem splitStep_nobreak_nil (c : Char) (hb : isLineBreak c = false) :
    splitStep c [] = [[c]] := by
  simp [splitStep, hb]

theorem splitStep_nobreak_cons (c : Char) (hb : isLineBreak c = false)
    (l : Str) (ls : List Str) : splitStep c (l :: ls) = (c :: l) :: ls := by
  simp [splitStep, hb]

theorem splitLinesL_crlf (rest : Str) :
    splitLinesL ('\x0d' :: '\n' :: rest) = [] :: splitLinesL rest := by
  rfl

set_option maxHeartbeats 1000000 in
theorem splitLinesL_cons (c : Char) (rest : Str)
    (hx : ¬(c = '\x0d' ∧ ∃ r, rest = '\n' :: r)) :
    splitLinesL (c :: rest) = splitStep c (splitLinesL rest) := by
  rw [splitLinesL.eq_def]
  split
  · rename_i heq
    exact absurd heq (by simp)
  · rename_i heq
    injection heq with h1 h2
    exact absurd ⟨h1, ⟨_, h2⟩⟩ hx
  · rename_i c' rest' hne heq
    injection heq with h1 h2
    subst h1
    subst h2
    rfl

theorem splitLinesL_cons_nobreak (c : Char) (rest : Str)
    (hb : isLineBreak c = false) :
    splitLinesL (c :: rest) = splitStep c (splitLinesL rest) := by
  refine splitLinesL_cons c rest ?_
  rintro ⟨h1, r, h2⟩
  subst h1
  simp [isLineBreak] at hb

theorem splitLinesL_chars : ∀ (s : Str), ∀ l ∈ splitLinesL s, ∀ c ∈ l,
    c ∈ s ∧ isLineBreak c = false := by
  intro s
  induction s using splitLinesL.induct with
  | case1 =>
    intro l hl
    simp [splitLinesL] at hl
  | case2 rest ih =>
    intro l hl c hc
    rw [splitLinesL_crlf] at hl
    rcases List.mem_cons.mp hl with h | h
    · subst h; simp at hc
    · obtain ⟨h1, h2⟩ := ih l h c hc
      exact ⟨List.mem_cons_of_mem _ (List.mem_cons_of_mem _ h1), h2⟩
  | case3 c rest hne ih =>
    intro l hl c' hc'
    rw [splitLinesL_cons c rest (by rintro ⟨h1, r, h2⟩; exact hne r h1 h2)] at hl
    by_cases hb : isLineBreak c = true
    · rw [splitStep_break c hb] at hl
      rcases List.mem_cons.mp hl with h | h
      · subst h; simp at hc'
      · obtain ⟨h1, h2⟩ := ih l h c' hc'
        exact ⟨List.mem_cons_of_mem _ h1, h2⟩
    · cases hr : splitLinesL rest with
      | nil =>
        rw [hr, splitStep_nobreak_nil c (by simpa using hb)] at hl
        simp only [List.mem_singleton] at hl
        subst hl
        simp only [List.mem_singleton] at hc'
        subst hc'
        exact ⟨List.mem_cons_self _ _, by simpa using hb⟩
      | cons l0 ls0 =>
        rw [hr, splitStep_nobreak_cons c (by simpa using hb)] at hl
        rcases List.mem_cons.mp hl with h | h
        · subst h
          rcases List.mem_cons.mp hc' with h' | h'
          · subst h'
            exact ⟨List.mem_cons_self _ _, by simpa using hb⟩
          · obtain ⟨h1, h2⟩ := ih l0 (by rw [hr]; exact List.mem_cons_self _ _) c' h'
            exact ⟨List.mem_cons_of_mem _ h1, h2⟩
        · obtain ⟨h1, h2⟩ := ih l (by rw [hr]; exact List.mem_cons_of_mem _ h) c' hc'
          exact ⟨List.mem_cons_of_mem _ h1, h2⟩

theorem splitLinesL_breakFree (p : Str) (hp : ∀ c ∈ p, isLineBreak c = false)
    (hne : p ≠ []) : splitLinesL p = [p] := by
  induction p with
  | nil => exact absurd rfl hne
  | cons c rest ih =>
    have hc : isLineBreak c = false := hp c (List.mem_cons_self _ _)
    rw [splitLinesL_cons_nobreak c rest hc]
    cases hr : rest with
    | nil =>
      subst hr
      show splitStep c (splitLinesL []) = [[c]]
      rw [show splitLinesL [] = [] from rfl, splitStep_nobreak_nil c hc]
    | cons d rest' =>
      subst hr
      rw [ih (fun x hx => hp x (List.mem_cons_of_mem _ hx)) (by simp),
        splitStep_nobreak_cons c hc]

theorem splitLinesL_append_nl (p : Str) (t : Str)
    (hp : ∀ c ∈ p, isLineBreak c = false) :
    splitLinesL (p ++ '\n' :: t) = p :: splitLinesL t := by
  induction p with
  | nil =>
    show splitLinesL ('\n' :: t) = [] :: splitLinesL t
    rw [splitLinesL_cons '\n' t (by rintro ⟨h1, r, h2⟩; simp at h1),
      splitStep_break '\n' (by simp [isLineBreak])]
  | cons c rest ih =>
    have hc : isLineBreak c = false := hp c (List.mem_cons_self _ _)
    rw [List.cons_append, splitLinesL_cons_nobreak c _ hc,
      ih (fun x hx => hp x (List.mem_cons_of_mem _ hx)),
      splitStep_nobreak_cons c hc]

theorem joinNL_cons_cons (p q : Str) (ps : List Str) :
    joinNL (p :: q :: ps) = p ++ '\n' :: joinNL (q :: ps) := by
  show p ++ ['\n'] ++ joinNL (q :: ps) = p ++ '\n' :: joinNL (q :: ps)
  simp

theorem joinNL_cons_head (c : Char) (q' : Str) (ps : List Str) :
    ∃ z, joinNL ((c :: q') :: ps) = c :: z := by
  cases ps with
  | nil => exact ⟨q', rfl⟩
  | cons r ps' =>
    refine ⟨q' ++ '\n' :: joinNL (r :: ps'), ?_⟩
    rw [joinNL_cons_cons, List.cons_append]

theorem splitLinesL_joinNL : ∀ (M : List Str),
    (∀ l ∈ M, ∀ c ∈ l, isLineBreak c = false) → M ≠ [] →
    splitLinesL (joinNL M) =
      (if M.getLast? = some [] then M.dropLast else M) := by
  intro M
  induction M with
  | nil => intro _ h; exact absurd rfl h
  | cons p M ih =>
    intro hbf _
    cases M with
    | nil =>
      show splitLinesL p = _
      cases hp : p with
      | nil => simp [splitLinesL]
      | cons c t =>
        rw [← hp, splitLinesL_breakFree p (hbf p (List.mem_cons_self _ _))
          (by rw [hp]; simp)]
        rw [hp]
        simp
    | cons q ps =>
      rw [joinNL_cons_cons, splitLinesL_append_nl p _ (hbf p (List.mem_cons_self _ _)),
        ih (fun l hl => hbf l (List.mem_cons_of_mem _ hl)) (by simp)]
      have hlast : (p :: q :: ps).getLast? = (q :: ps).getLast? := by
        rw [List.getLast?_cons_cons]
      rw [hlast]
      by_cases h : (q :: ps).getLast? = some []
      · rw [if_pos h, if_pos h]
        rfl
      · rw [if_neg h, if_neg h]

theorem mem_joinNL : ∀ (L : List Str) (c : Char), c ∈ joinNL L →
    c = '\n' ∨ ∃ l ∈ L, c ∈ l := by
  intro L
  induction L with
  | nil => intro c hc; simp [joinNL, joinSep] at hc
  | cons p M ih =>
    intro c hc
    cases M with
    | nil =>
      right
      exact ⟨p, List.mem_cons_self _ _, hc⟩
    | cons q ps =>
      rw [joinNL_cons_cons] at hc
      rcases List.mem_append.mp hc with h | h
      · right; exact ⟨p, List.mem_cons_self _ _, h⟩
      · rcases List.mem_cons.mp h with h' | h'
        · left; exact h'
        · rcases ih c h' with h'' | ⟨l, hl, hcl⟩
          · left; exact h''
          · right; exact ⟨l, List.mem_cons_of_mem _ hl, hcl⟩

theorem infixB_nnn_cons_ne (a : Char) (t : Str) (ha : a ≠ '\n') :
    infixB ['\n', '\n', '\n'] (a :: t) = infixB ['\n', '\n', '\n'] t := by
  rw [infixB]
  have : isPrefixB ['\n', '\n', '\n'] (a :: t) = false := by
    rw [isPrefixB]
    simp [Ne.symm ha]
  rw [this]
  simp

theorem infixB_nnn_append_free (p : Str) (hp : '\n' ∉ p) (t : Str) :
    infixB ['\n', '\n', '\n'] (p ++ t) = infixB ['\n', '\n', '\n'] t := by
  induction p with
  | nil => rfl
  | cons a p' ih =>
    rw [List.cons_append,
      infixB_nnn_cons_ne a _ (by intro h; exact hp (h ▸ List.mem_cons_self _ _))]
    exact ih (fun h => hp (List.mem_cons_of_mem _ h))

theorem infixB_nnn_free (p : Str) (hp : '\n' ∉ p) :
    infixB ['\n', '\n', '\n'] p = false := by
  have := infixB_nnn_append_free p hp []
  rw [List.append_nil] at this
  rw [this]
  rfl

theorem isPrefixB_nl_head_false (x : Str) (c : Char) (z : Str) (hc : c ≠ '\n') :
    isPrefixB ('\n' :: x) (c :: z) = false := by
  rw [isPrefixB]
  simp [Ne.symm hc]

theorem joinNL_no_nnn : ∀ (L : List Str), (∀ l ∈ L, '\n' ∉ l) →
    L.Chain' (· ≠ ·) → infixB ['\n', '\n', '\n'] (joinNL L) = false := by
  intro L
  induction L with
  | nil => intro _ _; rfl
  | cons p M ih =>
    intro hnl hch
    cases M with
    | nil => exact infixB_nnn_free p (hnl p (List.mem_cons_self _ _))
    | cons q ps =>
      rw [joinNL_cons_cons,
        infixB_nnn_append_free p (hnl p (List.mem_cons_self _ _))]
      have hJ : infixB ['\n', '\n', '\n'] (joinNL (q :: ps)) = false :=
        ih (fun l hl => hnl l (List.mem_cons_of_mem _ hl))
          (List.Chain'.tail hch)
      rw [infixB, hJ]
      have hpre : isPrefixB ['\n', '\n', '\n'] ('\n' :: joinNL (q :: ps)) = false := by
        rw [isPrefixB]
        simp only [decide_True, Bool.true_and, Bool.or_false]
        cases hq : q with
        | cons c q' =>
          have hc : c ≠ '\n' := by
            intro h
            exact hnl q (List.mem_cons_of_mem _ (List.mem_cons_self _ _))
              (by rw [hq, h]; exact List.mem_cons_self _ _)
          obtain ⟨z, hz⟩ := joinNL_cons_head c q' ps
          rw [hz]
          exact isPrefixB_nl_head_false _ c z hc
        | nil =>
          subst hq
          cases ps with
          | nil => rfl
          | cons r ps' =>
            rw [joinNL_cons_cons, List.nil_append, isPrefixB]
            simp only [decide_True, Bool.true_and]
            cases hr : r with
            | cons c r' =>
              have hc : c ≠ '\n' := by
                intro h
                exact hnl r
                  (List.mem_cons_of_mem _ (List.mem_cons_of_mem _ (List.mem_cons_self _ _)))
                  (by rw [hr, h]; exact List.mem_cons_self _ _)
              obtain ⟨z, hz⟩ := joinNL_cons_head c r' ps'
              rw [hz]
              exact isPrefixB_nl_head_false _ c z hc
            | nil =>
              exfalso
              have h2 := List.chain'_cons.mp (List.Chain'.tail hch)
              exact h2.1 (by rw [hr])
      rw [hpre]
      rfl

theorem dedupAdjGo_chain : ∀ (ls : List Str) (prev : Str),
    (dedupAdjGo prev ls).Chain' (· ≠ ·) ∧
    (∀ x, (dedupAdjGo prev ls).head? = some x → x ≠ prev) := by
  intro ls
  induction ls with
  | nil =>
    intro prev
    exact ⟨List.chain'_nil, by intro x h; simp [dedupAdjGo] at h⟩
  | cons l ls ih =>
    intro prev
    rw [dedupAdjGo]
    by_cases h : l = prev
    · rw [if_pos h]
      subst h
      exact ih l
    · rw [if_neg h]
      obtain ⟨hc, hh⟩ := ih l
      constructor
      · rw [List.chain'_cons']
        exact ⟨fun y hy => Ne.symm (hh y (Option.mem_def.mp hy)), hc⟩
      · intro x hx
        simp only [List.head?_cons, Option.some.injEq] at hx
        subst hx
        exact h

theorem dedupAdj_chain (L : List Str) : (dedupAdj L).Chain' (· ≠ ·) := by
  cases L with
  | nil => exact List.chain'_nil
  | cons l ls =>
    rw [dedupAdj, List.chain'_cons']
    obtain ⟨hc, hh⟩ := dedupAdjGo_chain ls l
    exact ⟨fun y hy => Ne.symm (hh y (Option.mem_def.mp hy)), hc⟩

theorem dedupAdjGo_subset : ∀ (ls : List Str) (prev l : Str),
    l ∈ dedupAdjGo prev ls → l ∈ ls := by
  intro ls
  induction ls with
  | nil => intro prev l h; simp [dedupAdjGo] at h
  | cons x xs ih =>
    intro prev l h
    rw [dedupAdjGo] at h
    by_cases hx : x = prev
    · rw [if_pos hx] at h
      exact List.mem_cons_of_mem _ (ih prev l h)
    · rw [if_neg hx] at h
      rcases List.mem_cons.mp h with h' | h'
      · subst h'; exact List.mem_cons_self _ _
      · exact List.mem_cons_of_mem _ (ih x l h')

theorem dedupAdj_subset (L : List Str) (l : Str) (h : l ∈ dedupAdj L) : l ∈ L := by
  cases L with
  | nil => simp [dedupAdj] at h
  | cons x xs =>
    rw [dedupAdj] at h
    rcases List.mem_cons.mp h with h' | h'
    · subst h'; exact List.mem_cons_self _ _
    · exact List.mem_cons_of_mem _ (dedupAdjGo_subset xs x l h')

theorem rstripL_subset (l : Str) (c : Char) (h : c ∈ rstripL l) : c ∈ l := by
  rw [rstripL, List.mem_reverse] at h
  exact List.mem_reverse.mp ((List.dropWhile_sublist isPySpace).subset h)

theorem chain'_dropLast {α : Type} (R : α → α → Prop) (l : List α)
    (h : l.Chain' R) : l.dropLast.Chain' R :=
  h.prefix (List.dropLast_prefix l)

theorem removeHyphenLF_cons_ne (c : Char) (rest : Str)
    (h : ∀ r, c = '-' → rest = '\n' :: r → False) :
    removeHyphenLF (c :: rest) = c :: removeHyphenLF rest := by
  rw [removeHyphenLF.eq_def]
  split
  · rename_i heq
    injection heq with h1 h2
    exact absurd (h _ h1 h2) not_false
  · rename_i c' rest' hne heq
    injection heq with h1 h2
    subst h1
    subst h2
    rfl
  · rename_i heq
    simp at heq

theorem bulletNorm_not_bullet (s : Str) (c : Char) (hc : c ∈ bulletNorm s) :
    c ≠ '•' ∧ c ≠ '●' ∧ c ≠ '–' ∧ c ≠ '—' := by
  induction s with
  | nil => simp [bulletNorm] at hc
  | cons a t ih =>
    rw [bulletNorm, List.flatMap_cons] at hc
    rcases List.mem_append.mp hc with h | h
    · split_ifs at h with h1 h2 h3 h4
      · rcases List.mem_cons.mp h with h' | h' <;> simp_all
      · rcases List.mem_cons.mp h with h' | h' <;> simp_all
      · simp only [List.mem_singleton] at h
        subst h; decide
      · simp only [List.mem_singleton] at h
        subst h; decide
      · simp only [List.mem_singleton] at h
        subst h
        exact ⟨h1, h2, h3, h4⟩
    · exact ih h

theorem removeHyphenLF_subset : ∀ (s : Str) (c : Char),
    c ∈ removeHyphenLF s → c ∈ s := by
  intro s
  induction s using removeHyphenLF.induct with
  | case1 rest ih =>
    intro c hc
    rw [removeHyphenLF] at hc
    exact List.mem_cons_of_mem _ (List.mem_cons_of_mem _ (ih c hc))
  | case2 d rest hne ih =>
    intro c hc
    rw [removeHyphenLF_cons_ne d rest (fun r h1 h2 => hne r h1 h2)] at hc
    rcases List.mem_cons.mp hc with h | h
    · subst h; exact List.mem_cons_self _ _
    · exact List.mem_cons_of_mem _ (ih c h)
  | case3 =>
    intro c hc
    simp [removeHyphenLF] at hc

theorem rep3_subset : ∀ (s : Str) (c : Char), c ∈ rep3 s → c ∈ s := by
  intro s
  induction s using rep3.induct with
  | case1 rest ih =>
    intro c hc
    rw [rep3] at hc
    rcases List.mem_cons.mp hc with h | h
    · subst h; exact List.mem_cons_self _ _
    · rcases List.mem_cons.mp h with h' | h'
      · subst h'; exact List.mem_cons_self _ _
      · exact List.mem_cons_of_mem _ (List.mem_cons_of_mem _
          (List.mem_cons_of_mem _ (ih c h')))
  | case2 d rest hne ih =>
    intro c hc
    have hp : isPrefixB ['\n', '\n', '\n'] (d :: rest) ≠ true := by
      intro h
      obtain ⟨r, heq⟩ := (isPrefixB_nnn_iff _).mp h
      injection heq with ha hb
      exact hne r ha hb
    rw [rep3_cons d rest hp] at hc
    rcases List.mem_cons.mp hc with h | h
    · subst h; exact List.mem_cons_self _ _
    · exact List.mem_cons_of_mem _ (ih c h)
  | case3 =>
    intro c hc
    simp [rep3] at hc

theorem collapseGo_subset : ∀ (f : ℕ) (s : Str) (c : Char),
    c ∈ collapseGo f s → c ∈ s := by
  intro f
  induction f with
  | zero => intro s c hc; exact hc
  | succ f ih =>
    intro s c hc
    rw [collapseGo] at hc
    by_cases h : infixB ['\n', '\n', '\n'] s = true
    · rw [if_pos h] at hc
      exact rep3_subset s c (ih (rep3 s) c hc)
    · rw [if_neg h] at hc
      exact hc

theorem collapseNewlines_subset (s : Str) (c : Char)
    (hc : c ∈ collapseNewlines s) : c ∈ s :=
  collapseGo_subset s.length s c hc

theorem collapseNewlines_id (s : Str)
    (h : infixB ['\n', '\n', '\n'] s = false) : collapseNewlines s = s := by
  rw [collapseNewlines_eq, if_neg (by simp [h])]

theorem bulletNorm_id (s : Str)
    (h : ∀ c ∈ s, c ≠ '•' ∧ c ≠ '●' ∧ c ≠ '–' ∧ c ≠ '—') :
    bulletNorm s = s := by
  induction s with
  | nil => rfl
  | cons a t ih =>
    obtain ⟨h1, h2, h3, h4⟩ := h a (List.mem_cons_self _ _)
    rw [bulletNorm, List.flatMap_cons, if_neg h1, if_neg h2, if_neg h3, if_neg h4]
    have := ih (fun c hc => h c (List.mem_cons_of_mem _ hc))
    rw [bulletNorm] at this
    rw [this]
    rfl

theorem removeHyphenLF_id : ∀ (s : Str), '-' ∉ s → removeHyphenLF s = s := by
  intro s
  induction s with
  | nil => intro _; rfl
  | cons c t ih =>
    intro h
    have hc : c ≠ '-' := fun he => h (he ▸ List.mem_cons_self _ _)
    rw [removeHyphenLF_cons_ne c t (fun _ he _ => hc he),
      ih (fun hm => h (List.mem_cons_of_mem _ hm))]

theorem removeHyphenLF_merge (w1 w2 : Str) (h1 : '-' ∉ w1) (h2 : '-' ∉ w2) :
    removeHyphenLF (w1 ++ '-' :: '\n' :: w2) = w1 ++ w2 := by
  induction w1 with
  | nil =>
    show removeHyphenLF ('-' :: '\n' :: w2) = w2
    rw [removeHyphenLF]
    exact removeHyphenLF_id w2 h2
  | cons c t ih =>
    have hc : c ≠ '-' := fun he => h1 (he ▸ List.mem_cons_self _ _)
    rw [List.cons_append, removeHyphenLF_cons_ne c _ (fun _ he _ => hc he),
      ih (fun hm => h1 (List.mem_cons_of_mem _ hm)), List.cons_append]

theorem rstripL_id (s : Str) (h : ∀ c ∈ s, isPySpace c = false) :
    rstripL s = s := by
  rw [rstripL]
  cases hr : s.reverse with
  | nil =>
    rw [List.dropWhile_nil, ← hr, List.reverse_reverse]
  | cons c t =>
    have hc : isPySpace c = false :=
      h c (by rw [← List.mem_reverse, hr]; exact List.mem_cons_self _ _)
    rw [List.dropWhile_cons, if_neg (by simp [hc]), ← hr, List.reverse_reverse]

/-- A character that is entirely inert for the normalizer: not a line
break, not Python whitespace, not a hyphen and not one of the bullet or
dash glyphs that `_normalize_text` rewrites. -/
def plainChar (c : Char) : Bool :=
  !isLineBreak c && !isPySpace c && !(c = '-') &&
  !(c = '•') && !(c = '●') && !(c = '–') && !(c = '—')

theorem plainChar_spec (c : Char) (h : plainChar c = true) :
    isLineBreak c = false ∧ isPySpace c = false ∧ c ≠ '-' ∧
    c ≠ '•' ∧ c ≠ '●' ∧ c ≠ '–' ∧ c ≠ '—' := by
  simp only [plainChar, Bool.and_eq_true, Bool.not_eq_true',
    decide_eq_false_iff_not] at h
  exact ⟨h.1.1.1.1.1.1, h.1.1.1.1.1.2, h.1.1.1.1.2, h.1.1.1.2, h.1.1.2, h.1.2, h.2⟩

/-- C7 counterexample: `str.replace("-\n", "")` makes a single
left-to-right pass, so `"foo--\n\nbar"` normalizes to `"foo-\nbar"`,
which still contains a hyphen-broken line wrap (a second replace pass
would merge it to `"foobar"`); the claim that the output always has
hyphen-broken wraps merged is false. -/
theorem hyphen_merge_residual_counterexample :
    _normalize_text ("foo--\n\nbar".toList) = "foo-\nbar".toList ∧
    infixB ['-', '\n'] (_normalize_text ("foo--\n\nbar".toList)) = true ∧
    removeHyphenLF (_normalize_text ("foo--\n\nbar".toList)) = "foobar".toList :=
  ⟨by decide, by decide, by decide⟩

/-- C7 amended: for every input, the normalizer's output contains no
bullet or dash glyph (they are rewritten to the canonical `-` marker),
no run of 3 or more consecutive newlines, and no immediately-repeated
identical lines; and a single hyphen-broken line wrap between two plain
words is merged (`"word-\nword"` becomes `"wordword"`).  Merging is only
guaranteed when the occurrences of `"-\n"` do not overlap: the
single-pass replace can leave a residual `"-\n"` behind. -/
theorem normalize_properties (s w1 w2 : Str)
    (hw1 : ∀ c ∈ w1, plainChar c = true) (hw2 : ∀ c ∈ w2, plainChar c = true)
    (hne : w1 ≠ []) :
    (∀ c ∈ _normalize_text s, c ≠ '•' ∧ c ≠ '●' ∧ c ≠ '–' ∧ c ≠ '—') ∧
    infixB ['\n', '\n', '\n'] (_normalize_text s) = false ∧
    (splitLinesL (_normalize_text s)).Chain' (· ≠ ·) ∧
    _normalize_text (w1 ++ '-' :: '\n' :: w2) = w1 ++ w2 := by
  have hgen : ∀ t : Str,
      (∀ c ∈ _normalize_text t, c ≠ '•' ∧ c ≠ '●' ∧ c ≠ '–' ∧ c ≠ '—') ∧
      infixB ['\n', '\n', '\n'] (_normalize_text t) = false ∧
      (splitLinesL (_normalize_text t)).Chain' (· ≠ ·) := by
    intro t
    by_cases ht : t = []
    · subst ht
      refine ⟨?_, rfl, ?_⟩
      · intro c hc
        have he : _normalize_text ([] : Str) = [] := rfl
        rw [he] at hc
        simp at hc
      · have he : _normalize_text ([] : Str) = [] := rfl
        rw [he]
        exact List.chain'_nil
    · have hdef : _normalize_text t =
          joinNL (dedupAdj ((splitLinesL (collapseNewlines
            (removeHyphenLF (bulletNorm t)))).map rstripL)) := by
        rw [_normalize_text, if_neg ht]
      have hMbf : ∀ l ∈ dedupAdj ((splitLinesL (collapseNewlines
          (removeHyphenLF (bulletNorm t)))).map rstripL), ∀ c ∈ l,
          isLineBreak c = false := by
        intro l hl c hc
        have hl' := dedupAdj_subset _ l hl
        obtain ⟨l0, hl0, hleq⟩ := List.mem_map.mp hl'
        subst hleq
        exact (splitLinesL_chars _ l0 hl0 c (rstripL_subset l0 c hc)).2
      have hMnl : ∀ l ∈ dedupAdj ((splitLinesL (collapseNewlines
          (removeHyphenLF (bulletNorm t)))).map rstripL), '\n' ∉ l := by
        intro l hl h
        have := hMbf l hl '\n' h
        simp [isLineBreak] at this
      have hch := dedupAdj_chain
        ((splitLinesL (collapseNewlines (removeHyphenLF (bulletNorm t)))).map rstripL)
      refine ⟨?_, ?_, ?_⟩
      · intro c hc
        rw [hdef] at hc
        rcases mem_joinNL _ c hc with h | ⟨l, hl, hcl⟩
        · subst h; decide
        · have hl' := dedupAdj_subset _ l hl
          obtain ⟨l0, hl0, hleq⟩ := List.mem_map.mp hl'
          subst hleq
          have hc3 := (splitLinesL_chars _ l0 hl0 c (rstripL_subset l0 c hcl)).1
          have hc2 := collapseNewlines_subset _ c hc3
          have hc1 := removeHyphenLF_subset _ c hc2
          exact bulletNorm_not_bullet t c hc1
      · rw [hdef]
        exact joinNL_no_nnn _ hMnl hch
      · rw [hdef]
        by_cases hM : dedupAdj ((splitLinesL (collapseNewlines
            (removeHyphenLF (bulletNorm t)))).map rstripL) = []
        · rw [hM]
          exact List.chain'_nil
        · rw [splitLinesL_joinNL _ hMbf hM]
          split
          · exact chain'_dropLast _ _ hch
          · exact hch
  obtain ⟨ha, hb, hc'⟩ := hgen s
  refine ⟨ha, hb, hc', ?_⟩
  have hpw1 := fun c hc => plainChar_spec c (hw1 c hc)
  have hpw2 := fun c hc => plainChar_spec c (hw2 c hc)
  have hu : w1 ++ '-' :: '\n' :: w2 ≠ [] := by
    intro h
    have := congrArg List.length h
    simp at this
  rw [_normalize_text, if_neg hu]
  show joinNL (dedupAdj ((splitLinesL (collapseNewlines (removeHyphenLF
    (bulletNorm (w1 ++ '-' :: '\n' :: w2))))).map rstripL)) = w1 ++ w2
  have hb1 : bulletNorm (w1 ++ '-' :: '\n' :: w2) = w1 ++ '-' :: '\n' :: w2 := by
    apply bulletNorm_id
    intro c hc
    rcases List.mem_append.mp hc with h | h
    · obtain ⟨_, _, _, h4, h5, h6, h7⟩ := hpw1 c h
      exact ⟨h4, h5, h6, h7⟩
    · rcases List.mem_cons.mp h with h' | h'
      · subst h'; decide
      · rcases List.mem_cons.mp h' with h'' | h''
        · subst h''; decide
        · obtain ⟨_, _, _, h4, h5, h6, h7⟩ := hpw2 c h''
          exact ⟨h4, h5, h6, h7⟩
  have hb2 : removeHyphenLF (w1 ++ '-' :: '\n' :: w2) = w1 ++ w2 :=
    removeHyphenLF_merge w1 w2 (fun h => (hpw1 '-' h).2.2.1 rfl)
      (fun h => (hpw2 '-' h).2.2.1 rfl)
  have hnlfree : '\n' ∉ w1 ++ w2 := by
    intro h
    rcases List.mem_append.mp h with h' | h'
    · have := (hpw1 '\n' h').1
      simp [isLineBreak] at this
    · have := (hpw2 '\n' h').1
      simp [isLineBreak] at this
  have hb3 : collapseNewlines (w1 ++ w2) = w1 ++ w2 :=
    collapseNewlines_id _ (infixB_nnn_free _ hnlfree)
  have hbrf : ∀ c ∈ w1 ++ w2, isLineBreak c = false := by
    intro c hc
    rcases List.mem_append.mp hc with h | h
    · exact (hpw1 c h).1
    · exact (hpw2 c h).1
  have hwne : w1 ++ w2 ≠ [] := by
    intro h
    rcases List.append_eq_nil.mp h with ⟨h1, _⟩
    exact hne h1
  have hb4 : splitLinesL (w1 ++ w2) = [w1 ++ w2] :=
    splitLinesL_breakFree _ hbrf hwne
  have hb5 : rstripL (w1 ++ w2) = w1 ++ w2 := by
    apply rstripL_id
    intro c hc
    rcases List.mem_append.mp hc with h | h
    · exact (hpw1 c h).2.1
    · exact (hpw2 c h).2.1
  rw [hb1, hb2, hb3, hb4]
  show joinNL (dedupAdj [rstripL (w1 ++ w2)]) = w1 ++ w2
  rw [hb5]
  rfl

/-- Witness for the amended normalizer theorem: the clean hyphen-broken
wrap `"wo-\nrd"` is merged to `"word"`. -/
theorem normalize_properties_witness :
    _normalize_text ("wo".toList ++ '-' :: '\n' :: "rd".toList) =
      "wo".toList ++ "rd".toList :=
  (normalize_properties ("x".toList) ("wo".toList) ("rd".toList)
    (by decide) (by decide) (by decide)).2.2.2

/-! ## C5: sub-batch failure semantics of `_ocr_pdf_pages` -/

/-- One sub-batch step: rasterize `sb` and OCR the images, or keep the
state unchanged when rasterization fails. -/
def ocrStep (raster : ℤ → ℕ → ℕ → Option (List ℕ)) (ocrImage : Str → ℕ → Str)
    (dpi : ℤ) (cfg : Str) (st : OcrSt) (sb : ℕ × ℕ) : OcrSt :=
  match raster dpi sb.1 sb.2 with
  | none => st
  | some images => ocrImagesLoop ocrImage cfg sb.1 images st

/-- A rasterizer that fails exactly on the page window `[1, 2]` and
otherwise returns one image per requested page. -/
def rasterFail12 : ℤ → ℕ → ℕ → Option (List ℕ) :=
  fun _ a b => if a = 1 ∧ b = 2 then none else some (List.range' a (b + 1 - a))

/-- C5 counterexample: candidate pages 1,2,3,5 with batch size 2 split
into run (1,3) with sub-batches (1,2),(3,3) and run (5,5).  When
rasterizing sub-batch (1,2) fails, the `break` aborts the whole run, so
sub-batch (3,3) is never attempted even though its rasterization would
succeed; only page 5 (a later run) is OCR'd. -/
theorem batch_failure_run_abort_counterexample :
    _batch_ranges [1, 2, 3, 5] = [(1, 3), (5, 5)] ∧
    subBatches 2 1 3 = [(1, 2), (3, 3)] ∧
    (_ocr_pdf_pages true rasterFail12 (fun _ _ => ['t']) [1, 2, 3, 5]
      150 [] 2 0).1 = [(5, ['t'])] ∧
    rasterFail12 150 3 3 = some [3] :=
  ⟨by decide, by decide, by decide, by decide⟩

/-- C5 amended: a rasterization failure aborts the remainder of the
current contiguous run, not just the failed sub-batch: within each run
exactly the maximal prefix of sub-batches whose rasterization succeeds is
processed (`takeWhile`), while later runs are still attempted
independently (the fold over `_batch_ranges` always moves on to the next
run). -/
theorem batch_failure_isolation (raster : ℤ → ℕ → ℕ → Option (List ℕ))
    (ocrImage : Str → ℕ → Str) (dpi : ℤ) (cfg : Str) :
    (∀ (sbs : List (ℕ × ℕ)) (st : OcrSt),
      runSubBatches raster ocrImage dpi cfg sbs st =
        (sbs.takeWhile (fun sb => (raster dpi sb.1 sb.2).isSome)).foldl
          (ocrStep raster ocrImage dpi cfg) st) ∧
    (∀ (pages : List ℕ) (bs : ℕ) (e : ℚ), pages ≠ [] →
      _ocr_pdf_pages true raster ocrImage pages dpi cfg bs e =
        (let st := (_batch_ranges pages).foldl
          (fun st rng => ((subBatches bs rng.1 rng.2).takeWhile
            (fun sb => (raster dpi sb.1 sb.2).isSome)).foldl
            (ocrStep raster ocrImage dpi cfg) st) ([], 0)
         (st.1, st.2, e))) := by
  have hrun : ∀ (sbs : List (ℕ × ℕ)) (st : OcrSt),
      runSubBatches raster ocrImage dpi cfg sbs st =
        (sbs.takeWhile (fun sb => (raster dpi sb.1 sb.2).isSome)).foldl
          (ocrStep raster ocrImage dpi cfg) st := by
    intro sbs
    induction sbs with
    | nil => intro st; rfl
    | cons sb rest ih =>
      intro st
      obtain ⟨c, l⟩ := sb
      rw [runSubBatches]
      cases hr : raster dpi c l with
      | none =>
        rw [List.takeWhile_cons]
        simp only [hr, Option.isSome_none]
        rfl
      | some images =>
        rw [List.takeWhile_cons]
        simp only [hr, Option.isSome_some, if_true]
        rw [List.foldl_cons, ih]
        have hstep : ocrStep raster ocrImage dpi cfg st (c, l) =
            ocrImagesLoop ocrImage cfg c images st := by
          rw [ocrStep, hr]
        rw [hstep]
  refine ⟨hrun, ?_⟩
  intro pages bs e hp
  rw [_ocr_pdf_pages, if_neg (by rintro (h | h); exacts [h rfl, hp h])]
  exact congrArg (fun st : OcrSt => (st.1, st.2, e))
    (List.foldl_ext
      (fun (st : OcrSt) (rng : ℕ × ℕ) => runSubBatches raster ocrImage dpi cfg
        (subBatches bs rng.1 rng.2) st)
      (fun (st : OcrSt) (rng : ℕ × ℕ) => ((subBatches bs rng.1 rng.2).takeWhile
        (fun sb => (raster dpi sb.1 sb.2).isSome)).foldl
        (ocrStep raster ocrImage dpi cfg) st)
      ([], 0)
      (fun st rng _ => hrun (subBatches bs rng.1 rng.2) st))

/-- Witness for the failure-isolation theorem on the counterexample
rasterizer: only page 5 survives. -/
theorem batch_failure_isolation_witness :
    (_ocr_pdf_pages true rasterFail12 (fun _ _ => ['t']) [1, 2, 3, 5]
      150 [] 2 0).1 = [(5, ['t'])] := by
  have h := (batch_failure_isolation rasterFail12 (fun _ _ => ['t']) 150 []).2
    [1, 2, 3, 5] 2 0 (by decide)
  rw [h]
  decide

/-! ## C10: invariants of the OCR page map -/

/-- Keys of the dict model, in insertion order. -/
def keysOf (d : Dict) : List ℕ := d.map Prod.fst

theorem dictSet_fresh (d : Dict) (k : ℕ) (v : Str) (h : k ∉ keysOf d) :
    dictSet d k v = d ++ [(k, v)] := by
  rw [dictSet, if_neg]
  intro hany
  obtain ⟨p, hp, he⟩ := List.any_eq_true.mp hany
  exact h (List.mem_map.mpr ⟨p, hp, by simpa using he⟩)

/-- State invariant of the OCR loops: every key is a candidate page and
lies below the bound `bnd`, keys are distinct, and the `processed`
counter equals the number of dict entries. -/
def ocrInv (pages : List ℕ) (bnd : ℕ) (st : OcrSt) : Prop :=
  (∀ k ∈ keysOf st.1, k ∈ pages ∧ k < bnd) ∧
  (keysOf st.1).Nodup ∧ st.2 = st.1.length

theorem ocrInv_mono (pages : List ℕ) (b1 b2 : ℕ) (st : OcrSt)
    (h : b1 ≤ b2) (hi : ocrInv pages b1 st) : ocrInv pages b2 st :=
  ⟨fun k hk => ⟨(hi.1 k hk).1, lt_of_lt_of_le (hi.1 k hk).2 h⟩, hi.2.1, hi.2.2⟩

theorem ocrImagesLoop_inv (ocrImage : Str → ℕ → Str) (cfg : Str)
    (pages : List ℕ) :
    ∀ (imgs : List ℕ) (idx : ℕ) (st : OcrSt),
    ocrInv pages idx st →
    (∀ j, idx ≤ j → j < idx + imgs.length → j ∈ pages) →
    ocrInv pages (idx + imgs.length) (ocrImagesLoop ocrImage cfg idx imgs st) ∧
    (∀ k ∈ keysOf (ocrImagesLoop ocrImage cfg idx imgs st).1,
      k ∈ keysOf st.1 ∨ idx ≤ k) := by
  intro imgs
  induction imgs with
  | nil =>
    intro idx st hi hj
    exact ⟨by simpa using hi, fun k hk => Or.inl hk⟩
  | cons im rest ih =>
    intro idx st hi hj
    rw [ocrImagesLoop]
    have hfresh : idx ∉ keysOf st.1 := fun h => lt_irrefl idx (hi.1 idx h).2
    have hset : dictSet st.1 idx (stripL (ocrImage cfg im)) =
        st.1 ++ [(idx, stripL (ocrImage cfg im))] := dictSet_fresh _ _ _ hfresh
    have hkeys : keysOf (dictSet st.1 idx (stripL (ocrImage cfg im))) =
        keysOf st.1 ++ [idx] := by
      rw [hset, keysOf, List.map_append]
      rfl
    have hi' : ocrInv pages (idx + 1)
        (dictSet st.1 idx (stripL (ocrImage cfg im)), st.2 + 1) := by
      refine ⟨?_, ?_, ?_⟩
      · show ∀ k ∈ keysOf (dictSet st.1 idx (stripL (ocrImage cfg im))),
          k ∈ pages ∧ k < idx + 1
        intro k hk
        rw [hkeys] at hk
        rcases List.mem_append.mp hk with h | h
        · exact ⟨(hi.1 k h).1, by have := (hi.1 k h).2; omega⟩
        · simp only [List.mem_singleton] at h
          subst h
          exact ⟨hj _ (le_refl _) (by simp), by omega⟩
      · show (keysOf (dictSet st.1 idx (stripL (ocrImage cfg im)))).Nodup
        rw [hkeys, List.nodup_append]
        refine ⟨hi.2.1, List.nodup_singleton _, ?_⟩
        intro a ha hb
        simp only [List.mem_singleton] at hb
        subst hb
        exact hfresh ha
      · show st.2 + 1 = (dictSet st.1 idx (stripL (ocrImage cfg im))).length
        rw [hset, List.length_append, hi.2.2]
        rfl
    obtain ⟨hI, hK⟩ := ih (idx + 1) _ hi'
      (fun j h1 h2 => hj j (by omega) (by simp only [List.length_cons]; omega))
    constructor
    · exact ocrInv_mono pages _ _ _ (by simp only [List.length_cons]; omega) hI
    · intro k hk
      rcases hK k hk with h | h
      · rw [hkeys] at h
        rcases List.mem_append.mp h with h' | h'
        · exact Or.inl h'
        · simp only [List.mem_singleton] at h'
          subst h'
          exact Or.inr (le_refl _)
      · exact Or.inr (by omega)

/-- Well-formedness of a run's sub-batch list relative to a lower bound
`bnd` and the run's last page `E`: windows are ordered, within `[bnd, E]`,
and cover only candidate pages. -/
def sbOk (pages : List ℕ) : ℕ → ℕ → List (ℕ × ℕ) → Prop
  | _, _, [] => True
  | bnd, E, sb :: rest =>
    bnd ≤ sb.1 ∧ sb.1 ≤ sb.2 ∧ sb.2 ≤ E ∧
    (∀ j, sb.1 ≤ j → j ≤ sb.2 → j ∈ pages) ∧ sbOk pages (sb.2 + 1) E rest

theorem sbOk_lo (pages : List ℕ) : ∀ (sbs : List (ℕ × ℕ)) (bnd E : ℕ),
    sbOk pages bnd E sbs → ∀ sb ∈ sbs, bnd ≤ sb.1 := by
  intro sbs
  induction sbs with
  | nil => intro bnd E _ sb hsb; simp at hsb
  | cons x rest ih =>
    intro bnd E hok sb hsb
    simp only [sbOk] at hok
    rcases List.mem_cons.mp hsb with h | h
    · subst h; exact hok.1
    · have := ih (x.2 + 1) E hok.2.2.2.2 sb h
      have := hok.1
      have := hok.2.1
      omega

theorem sbOk_hi (pages : List ℕ) : ∀ (sbs : List (ℕ × ℕ)) (bnd E : ℕ),
    sbOk pages bnd E sbs → ∀ sb ∈ sbs, sb.2 ≤ E := by
  intro sbs
  induction sbs with
  | nil => intro bnd E _ sb hsb; simp at hsb
  | cons x rest ih =>
    intro bnd E hok sb hsb
    simp only [sbOk] at hok
    rcases List.mem_cons.mp hsb with h | h
    · subst h; exact hok.2.2.1
    · exact ih (x.2 + 1) E hok.2.2.2.2 sb h

theorem runSubBatches_inv (raster : ℤ → ℕ → ℕ → Option (List ℕ))
    (ocrImage : Str → ℕ → Str) (dpi : ℤ) (cfg : Str) (pages : List ℕ)
    (hcap : ∀ d a b imgs, raster d a b = some imgs → imgs.length ≤ b + 1 - a) :
    ∀ (sbs : List (ℕ × ℕ)) (bnd E : ℕ) (st : OcrSt),
    bnd ≤ E + 1 → sbOk pages bnd E sbs → ocrInv pages bnd st →
    ocrInv pages (E + 1) (runSubBatches raster ocrImage dpi cfg sbs st) ∧
    (∀ k ∈ keysOf (runSubBatches raster ocrImage dpi cfg sbs st).1,
      k ∈ keysOf st.1 ∨ bnd ≤ k) ∧
    (∀ sb ∈ sbs, raster dpi sb.1 sb.2 = none →
      ∀ k ∈ keysOf (runSubBatches raster ocrImage dpi cfg sbs st).1,
      ¬(sb.1 ≤ k ∧ k ≤ sb.2)) := by
  intro sbs
  induction sbs with
  | nil =>
    intro bnd E st hbe hok hi
    exact ⟨ocrInv_mono _ _ _ _ hbe hi, fun k hk => Or.inl hk, by simp⟩
  | cons sb rest ih =>
    intro bnd E st hbe hok hi
    have hok' := hok
    obtain ⟨c, l⟩ := sb
    simp only [sbOk] at hok
    obtain ⟨h1, h2, h3, h4, hrest⟩ := hok
    rw [runSubBatches]
    cases hr : raster dpi c l with
    | none =>
      refine ⟨ocrInv_mono _ _ _ _ hbe hi, fun k hk => Or.inl hk, ?_⟩
      intro sb' hmem hfail k hk hkin
      have hklt := (hi.1 k hk).2
      have hlo : bnd ≤ sb'.1 := sbOk_lo pages _ bnd E hok' sb' hmem
      have := hkin.1
      omega
    | some images =>
      have hlen : images.length ≤ l + 1 - c := hcap dpi c l images hr
      have hi1 : ocrInv pages c st := ocrInv_mono _ _ _ _ h1 hi
      obtain ⟨hL1, hLk⟩ := ocrImagesLoop_inv ocrImage cfg pages images c st hi1
        (fun j hj1 hj2 => h4 j hj1 (by omega))
      have hi2 : ocrInv pages (l + 1) (ocrImagesLoop ocrImage cfg c images st) :=
        ocrInv_mono _ _ _ _ (by omega) hL1
      obtain ⟨hI, hK, hAvoid⟩ := ih (l + 1) E
        (ocrImagesLoop ocrImage cfg c images st) (by omega) hrest hi2
      refine ⟨hI, ?_, ?_⟩
      · intro k hk
        rcases hK k hk with h | h
        · rcases hLk k h with h' | h'
          · exact Or.inl h'
          · exact Or.inr (by omega)
        · exact Or.inr (by omega)
      · intro sb' hmem hfail k hk hkin
        rcases List.mem_cons.mp hmem with he | hm
        · subst he
          simp only at hfail
          rw [hr] at hfail
          exact Option.noConfusion hfail
        · exact hAvoid sb' hm hfail k hk hkin

theorem subBatches_sbOk_fuel (pages : List ℕ) (bs : ℕ) (hbs : 1 ≤ bs) :
    ∀ (n c e : ℕ), e + 1 - c ≤ n →
    (∀ j, c ≤ j → j ≤ e → j ∈ pages) →
    sbOk pages c e (subBatches bs c e) := by
  intro n
  induction n with
  | zero =>
    intro c e hn hj
    rw [subBatches_eq, if_neg (by rintro ⟨hc, -⟩; omega)]
    exact trivial
  | succ n ih =>
    intro c e hn hj
    rw [subBatches_eq]
    by_cases h : c ≤ e ∧ 1 ≤ bs
    · rw [if_pos h]
      have hmin1 : c ≤ min (c + bs - 1) e := le_min (by omega) h.1
      have hmin2 : min (c + bs - 1) e ≤ e := min_le_right _ _
      simp only [sbOk]
      refine ⟨le_refl _, hmin1, hmin2, ?_, ?_⟩
      · intro j hj1 hj2
        exact hj j hj1 (le_trans hj2 hmin2)
      · exact ih (min (c + bs - 1) e + 1) e (by omega)
          (fun j hja hjb => hj j (by omega) hjb)
    · rw [if_neg h]
      exact trivial

theorem subBatches_sbOk (pages : List ℕ) (bs : ℕ) (hbs : 1 ≤ bs)
    (c e : ℕ) (hj : ∀ j, c ≤ j → j ≤ e → j ∈ pages) :
    sbOk pages c e (subBatches bs c e) :=
  subBatches_sbOk_fuel pages bs hbs (e + 1 - c) c e (le_refl _) hj

theorem insertSorted_mem (x : ℕ) : ∀ (l : List ℕ) (y : ℕ),
    y ∈ insertSorted x l → y = x ∨ y ∈ l := by
  intro l
  induction l with
  | nil =>
    intro y hy
    simp only [insertSorted, List.mem_singleton] at hy
    exact Or.inl hy
  | cons z zs ih =>
    intro y hy
    rw [insertSorted] at hy
    by_cases h1 : x < z
    · rw [if_pos h1] at hy
      rcases List.mem_cons.mp hy with h | h
      · exact Or.inl h
      · exact Or.inr h
    · rw [if_neg h1] at hy
      by_cases h2 : x = z
      · rw [if_pos h2] at hy
        exact Or.inr hy
      · rw [if_neg h2] at hy
        rcases List.mem_cons.mp hy with h | h
        · exact Or.inr (h ▸ List.mem_cons_self _ _)
        · rcases ih y h with h' | h'
          · exact Or.inl h'
          · exact Or.inr (List.mem_cons_of_mem _ h')

theorem insertSorted_head (x : ℕ) (l : List ℕ) (y : ℕ)
    (h : (insertSorted x l).head? = some y) : y = x ∨ l.head? = some y := by
  cases l with
  | nil =>
    simp only [insertSorted, List.head?_cons, Option.some.injEq] at h
    exact Or.inl h.symm
  | cons z zs =>
    rw [insertSorted] at h
    by_cases h1 : x < z
    · rw [if_pos h1] at h
      simp only [List.head?_cons, Option.some.injEq] at h
      exact Or.inl h.symm
    · rw [if_neg h1] at h
      by_cases h2 : x = z
      · rw [if_pos h2] at h
        exact Or.inr h
      · rw [if_neg h2] at h
        simp only [List.head?_cons, Option.some.injEq] at h
        exact Or.inr (by rw [List.head?_cons, h])

theorem insertSorted_chain (x : ℕ) : ∀ (l : List ℕ),
    l.Chain' (· < ·) → (insertSorted x l).Chain' (· < ·) := by
  intro l
  induction l with
  | nil =>
    intro _
    simp [insertSorted]
  | cons z zs ih =>
    intro hch
    rw [insertSorted]
    by_cases h1 : x < z
    · rw [if_pos h1]
      exact List.chain'_cons.mpr ⟨h1, hch⟩
    · rw [if_neg h1]
      by_cases h2 : x = z
      · rw [if_pos h2]
        exact hch
      · rw [if_neg h2]
        refine List.chain'_cons'.mpr ⟨?_, ih (List.Chain'.tail hch)⟩
        intro y hy
        rcases insertSorted_head x zs y (Option.mem_def.mp hy) with h | h
        · subst h
          omega
        · exact (List.chain'_cons'.mp hch).1 y (Option.mem_def.mpr h)

theorem sortedDistinct_chain (l : List ℕ) :
    (sortedDistinct l).Chain' (· < ·) := by
  induction l with
  | nil => exact List.chain'_nil
  | cons x xs ih => exact insertSorted_chain x _ ih

theorem sortedDistinct_subset (l : List ℕ) :
    ∀ y ∈ sortedDistinct l, y ∈ l := by
  induction l with
  | nil =>
    intro y hy
    exact hy
  | cons x xs ih =>
    intro y hy
    rcases insertSorted_mem x _ y hy with h | h
    · exact h ▸ List.mem_cons_self _ _
    · exact List.mem_cons_of_mem _ (ih y h)

/-- Well-formedness of the range list: runs are ordered, non-empty as
intervals, and cover only candidate pages. -/
def rnOk (pages : List ℕ) : ℕ → List (ℕ × ℕ) → Prop
  | _, [] => True
  | bnd, r :: rest =>
    bnd ≤ r.1 ∧ r.1 ≤ r.2 ∧ (∀ j, r.1 ≤ j → j ≤ r.2 → j ∈ pages) ∧
    rnOk pages (r.2 + 1) rest

theorem rangesGo_rnOk (pages : List ℕ) :
    ∀ (ps : List ℕ) (start prev bnd : ℕ),
    bnd ≤ start → start ≤ prev →
    (∀ j, start ≤ j → j ≤ prev → j ∈ pages) →
    (prev :: ps).Chain' (· < ·) →
    (∀ p ∈ ps, p ∈ pages) →
    rnOk pages bnd (rangesGo start prev ps) := by
  intro ps
  induction ps with
  | nil =>
    intro start prev bnd h1 h2 h3 _ _
    rw [rangesGo]
    simp only [rnOk]
    exact ⟨h1, h2, h3, trivial⟩
  | cons p ps ih =>
    intro start prev bnd h1 h2 h3 hch hmem
    rw [rangesGo]
    have hlt : prev < p := (List.chain'_cons.mp hch).1
    by_cases hp : p = prev + 1
    · rw [if_pos hp]
      apply ih start p bnd h1 (by omega)
      · intro j hj1 hj2
        by_cases hje : j = p
        · exact hje ▸ hmem p (List.mem_cons_self _ _)
        · exact h3 j hj1 (by omega)
      · exact (List.chain'_cons.mp hch).2
      · exact fun q hq => hmem q (List.mem_cons_of_mem _ hq)
    · rw [if_neg hp]
      simp only [rnOk]
      refine ⟨h1, h2, h3, ?_⟩
      apply ih p p (prev + 1) (by omega) (le_refl _)
      · intro j hj1 hj2
        have hje : j = p := by omega
        exact hje ▸ hmem p (List.mem_cons_self _ _)
      · exact (List.chain'_cons.mp hch).2
      · exact fun q hq => hmem q (List.mem_cons_of_mem _ hq)

theorem batch_ranges_rnOk (pages : List ℕ) :
    rnOk pages 0 (_batch_ranges pages) := by
  cases hsd : sortedDistinct pages with
  | nil =>
    have : _batch_ranges pages = [] := by
      rw [_batch_ranges, hsd]
    rw [this]
    exact trivial
  | cons p ps =>
    have hbr : _batch_ranges pages = rangesGo p p ps := by
      rw [_batch_ranges, hsd]
    rw [hbr]
    apply rangesGo_rnOk pages ps p p 0 (Nat.zero_le _) (le_refl _)
    · intro j hj1 hj2
      have hje : j = p := le_antisymm hj2 hj1
      exact hje ▸ sortedDistinct_subset pages p
        (by rw [hsd]; exact List.mem_cons_self _ _)
    · have hc := sortedDistinct_chain pages
      rw [hsd] at hc
      exact hc
    · intro q hq
      exact sortedDistinct_subset pages q
        (by rw [hsd]; exact List.mem_cons_of_mem _ hq)

theorem foldRanges_inv (raster : ℤ → ℕ → ℕ → Option (List ℕ))
    (ocrImage : Str → ℕ → Str) (dpi : ℤ) (cfg : Str) (pages : List ℕ)
    (bs : ℕ) (hbs : 1 ≤ bs)
    (hcap : ∀ d a b imgs, raster d a b = some imgs → imgs.length ≤ b + 1 - a) :
    ∀ (rs : List (ℕ × ℕ)) (bnd : ℕ) (st : OcrSt),
    rnOk pages bnd rs → ocrInv pages bnd st →
    ∃ bnd',
      ocrInv pages bnd' (rs.foldl (fun st rng =>
        runSubBatches raster ocrImage dpi cfg (subBatches bs rng.1 rng.2) st) st) ∧
      (∀ k ∈ keysOf (rs.foldl (fun st rng =>
        runSubBatches raster ocrImage dpi cfg (subBatches bs rng.1 rng.2) st) st).1,
        k ∈ keysOf st.1 ∨ bnd ≤ k) ∧
      (∀ r ∈ rs, ∀ sb ∈ subBatches bs r.1 r.2, raster dpi sb.1 sb.2 = none →
        ∀ k ∈ keysOf (rs.foldl (fun st rng =>
          runSubBatches raster ocrImage dpi cfg (subBatches bs rng.1 rng.2) st) st).1,
        ¬(sb.1 ≤ k ∧ k ≤ sb.2)) := by
  intro rs
  induction rs with
  | nil =>
    intro bnd st _ hi
    exact ⟨bnd, hi, fun k hk => Or.inl hk, by simp⟩
  | cons r rest ih =>
    intro bnd st hok hi
    simp only [rnOk] at hok
    obtain ⟨g1, g2, g3, grest⟩ := hok
    rw [List.foldl_cons]
    have hsb := subBatches_sbOk pages bs hbs r.1 r.2 g3
    obtain ⟨hi1, hnew1, havoid1⟩ := runSubBatches_inv raster ocrImage dpi cfg
      pages hcap (subBatches bs r.1 r.2) r.1 r.2 st (by omega) hsb
      (ocrInv_mono _ _ _ _ g1 hi)
    obtain ⟨bnd', hI, hNewRest, hAvoidRest⟩ := ih (r.2 + 1) _ grest hi1
    refine ⟨bnd', hI, ?_, ?_⟩
    · intro k hk
      rcases hNewRest k hk with h | h
      · rcases hnew1 k h with h' | h'
        · exact Or.inl h'
        · exact Or.inr (by omega)
      · exact Or.inr (by omega)
    · intro r' hmem sb hsb' hfail k hk hkin
      rcases List.mem_cons.mp hmem with he | hm
      · subst he
        rcases hNewRest k hk with h | h
        · exact havoid1 sb hsb' hfail k h hkin
        · have hhi : sb.2 ≤ r'.2 := sbOk_hi pages _ r'.1 r'.2 hsb sb hsb'
          have := hkin.2
          omega
      · exact hAvoidRest r' hm sb hsb' hfail k hk hkin

/-- C10: the OCR adapter's page-text map has keys drawn only from the
candidate list, each at most once, the `pagesProcessed` counter equals
the number of map entries, and the pages of a failing sub-batch appear
in neither.  The rasterizer hypothesis says `convert_from_bytes` never
returns more images than the size of the requested window. -/
theorem ocr_map_keys_invariant (raster : ℤ → ℕ → ℕ → Option (List ℕ))
    (ocrImage : Str → ℕ → Str) (pages : List ℕ) (dpi : ℤ) (cfg : Str)
    (bs : ℕ) (e : ℚ) (hbs : 1 ≤ bs)
    (hcap : ∀ d a b imgs, raster d a b = some imgs → imgs.length ≤ b + 1 - a) :
    (∀ k ∈ keysOf (_ocr_pdf_pages true raster ocrImage pages dpi cfg bs e).1,
      k ∈ pages) ∧
    (keysOf (_ocr_pdf_pages true raster ocrImage pages dpi cfg bs e).1).Nodup ∧
    (_ocr_pdf_pages true raster ocrImage pages dpi cfg bs e).2.1 =
      (_ocr_pdf_pages true raster ocrImage pages dpi cfg bs e).1.length ∧
    (∀ r ∈ _batch_ranges pages, ∀ sb ∈ subBatches bs r.1 r.2,
      raster dpi sb.1 sb.2 = none →
      ∀ k ∈ keysOf (_ocr_pdf_pages true raster ocrImage pages dpi cfg bs e).1,
      ¬(sb.1 ≤ k ∧ k ≤ sb.2)) := by
  by_cases hp : pages = []
  · subst hp
    have hz : _ocr_pdf_pages true raster ocrImage [] dpi cfg bs e =
        ([], 0, 0) := by
      rw [_ocr_pdf_pages, if_pos (Or.inr rfl)]
    rw [hz]
    refine ⟨?_, List.nodup_nil, rfl, ?_⟩
    · intro k hk
      exact absurd hk (by simp [keysOf])
    · intro r hr
      exact absurd hr (by rw [show _batch_ranges [] = [] from rfl]; simp)
  · have hne : ¬(¬true ∨ pages = []) := by
      rintro (h | h)
      exacts [h rfl, hp h]
    obtain ⟨bnd', hI, _, hAvoid⟩ := foldRanges_inv raster ocrImage dpi cfg
      pages bs hbs hcap (_batch_ranges pages) 0 ([], 0) (batch_ranges_rnOk pages)
      ⟨by intro k hk; exact absurd hk (by simp [keysOf]), List.nodup_nil, rfl⟩
    have hz : _ocr_pdf_pages true raster ocrImage pages dpi cfg bs e =
        (((_batch_ranges pages).foldl (fun st rng =>
          runSubBatches raster ocrImage dpi cfg (subBatches bs rng.1 rng.2) st)
          ([], 0)).1,
         ((_batch_ranges pages).foldl (fun st rng =>
          runSubBatches raster ocrImage dpi cfg (subBatches bs rng.1 rng.2) st)
          ([], 0)).2, e) := by
      rw [_ocr_pdf_pages, if_neg hne]
    rw [hz]
    exact ⟨fun k hk => (hI.1 k hk).1, hI.2.1, hI.2.2,
      fun r hr sb hsb hfail k hk => hAvoid r hr sb hsb hfail k hk⟩

/-- Witness for the map invariant on the counterexample rasterizer. -/
theorem ocr_map_keys_invariant_witness :
    (keysOf (_ocr_pdf_pages true rasterFail12 (fun _ _ => ['t']) [1, 2, 3, 5]
      150 [] 2 0).1).Nodup ∧
    (_ocr_pdf_pages true rasterFail12 (fun _ _ => ['t']) [1, 2, 3, 5]
      150 [] 2 0).2.1 =
      (_ocr_pdf_pages true rasterFail12 (fun _ _ => ['t']) [1, 2, 3, 5]
        150 [] 2 0).1.length := by
  have hcap : ∀ d a b imgs, rasterFail12 d a b = some imgs →
      imgs.length ≤ b + 1 - a := by
    intro d a b imgs h
    simp only [rasterFail12] at h
    by_cases hc : a = 1 ∧ b = 2
    · rw [if_pos hc] at h
      exact Option.noConfusion h
    · rw [if_neg hc] at h
      injection h with h'
      rw [← h']
      simp [List.length_range']
  have h := ocr_map_keys_invariant rasterFail12 (fun _ _ => ['t']) [1, 2, 3, 5]
    150 [] 2 0 (by decide) hcap
  exact ⟨h.2.1, h.2.2.1⟩

end StudyStreak
